import Mathlib

set_option maxHeartbeats 1000000

/-!
Shallow embedding of the showads-connector core (validators, config source,
ShowAds HTTP client, pipeline accounting), translated from the Python sources
under src/showads_connector.  Definitions mirror the code; theorems settle the
frozen claims about it.
-/

/-- Python values as they reach the validators: ints, bools, strings, or
anything else (floats, None, arbitrary objects).  `isinstance` dispatch in the
source becomes a match on this type; Python `bool` is a subclass of `int`, so
the source checks `isinstance(x, bool)` first, which the embedding keeps as a
separate constructor tested first. -/
inductive PyVal where
  | int (n : Int)
  | bool (b : Bool)
  | str (s : List Char)
  | other
deriving DecidableEq, Repr

/-- Validator outcome, mirroring the Python `(ok, code, value)` triples:
`(True, None, v)` becomes `ok v`, `(False, code, None)` becomes `fail code`. -/
inductive VResult (α : Type) where
  | ok (v : α)
  | fail (code : String)
deriving DecidableEq, Repr

/-- Python `str.isspace` / the whitespace set stripped by `str.strip()`:
U+0009..U+000D, U+001C..U+001F, space, U+0085, U+00A0, U+1680,
U+2000..U+200A, U+2028, U+2029, U+202F, U+205F, U+3000. -/
def pyIsSpace (c : Char) : Bool :=
  decide ((9 ≤ c.toNat ∧ c.toNat ≤ 13) ∨ (28 ≤ c.toNat ∧ c.toNat ≤ 31) ∨
    c.toNat = 32 ∨ c.toNat = 133 ∨ c.toNat = 160 ∨ c.toNat = 0x1680 ∨
    (0x2000 ≤ c.toNat ∧ c.toNat ≤ 0x200A) ∨ c.toNat = 0x2028 ∨ c.toNat = 0x2029 ∨
    c.toNat = 0x202F ∨ c.toNat = 0x205F ∨ c.toNat = 0x3000)

/-- Strip characters satisfying `p` from both ends of a list
(Python `str.strip()` / `str.strip('{}')`). -/
def pyStripP (p : Char → Bool) (l : List Char) : List Char :=
  ((l.dropWhile p).reverse.dropWhile p).reverse

/-- Python `str.strip()` (no argument): strip whitespace from both ends. -/
def pyStrip (l : List Char) : List Char :=
  pyStripP pyIsSpace l

/-- Value of an ASCII decimal digit, `none` for any other character.
(Scope of the model: ASCII digits; CPython additionally accepts non-ASCII
Unicode decimal digits, which no input in this development exercises.) -/
def decVal (c : Char) : Option Nat :=
  if c.isDigit then some (c.toNat - 48) else none

/-- Value of a hexadecimal digit (both cases), `none` otherwise. -/
def hexVal (c : Char) : Option Nat :=
  if c.isDigit then some (c.toNat - 48)
  else if 'a' ≤ c ∧ c ≤ 'f' then some (c.toNat - 87)
  else if 'A' ≤ c ∧ c ≤ 'F' then some (c.toNat - 55)
  else none

/-- Digit run after the first digit, per CPython's int-from-string grammar:
digits with single underscores allowed only between digits ("1_0" is legal,
"1__0", "1_", "_1" are not).  `dv` gives the digit value (decimal or hex),
`b` the base; `acc` the value accumulated so far. -/
def pyDigitsCore (dv : Char → Option Nat) (b : Nat) : List Char → Nat → Option Nat
  | [], acc => some acc
  | '_' :: [], _ => none
  | '_' :: c :: rest, acc =>
    match dv c with
    | some d => pyDigitsCore dv b rest (b * acc + d)
    | none => none
  | c :: rest, acc =>
    match dv c with
    | some d => pyDigitsCore dv b rest (b * acc + d)
    | none => none

/-- A nonempty digit run: first character must be a digit. -/
def pyDigits (dv : Char → Option Nat) (b : Nat) : List Char → Option Nat
  | [] => none
  | c :: rest =>
    match dv c with
    | some d => pyDigitsCore dv b rest d
    | none => none

/-- CPython `int(s)` (base 10): strip whitespace, optional single sign,
then a digit run with underscore grouping. -/
def pyIntStr (s : List Char) : Option Int :=
  match pyStrip s with
  | '+' :: rest => (pyDigits decVal 10 rest).map Int.ofNat
  | '-' :: rest => (pyDigits decVal 10 rest).map (fun n => -(Int.ofNat n))
  | l => (pyDigits decVal 10 l).map Int.ofNat

/-- Body of CPython `int(s, 16)` after the optional sign: an optional
`0x`/`0X` prefix (itself optionally followed by one underscore), then a
hex digit run with underscore grouping. -/
def pyHexBody (l : List Char) : Option Nat :=
  match l with
  | '0' :: x :: rest =>
    if x = 'x' ∨ x = 'X' then
      match rest with
      | '_' :: rest2 => pyDigits hexVal 16 rest2
      | _ => pyDigits hexVal 16 rest
    else pyDigits hexVal 16 ('0' :: x :: rest)
  | _ => pyDigits hexVal 16 l

/-- CPython `int(s, 16)`: strip whitespace, optional single sign, hex body. -/
def pyInt16Str (s : List Char) : Option Int :=
  match pyStrip s with
  | '+' :: rest => (pyHexBody rest).map Int.ofNat
  | '-' :: rest => (pyHexBody rest).map (fun n => -(Int.ofNat n))
  | l => (pyHexBody l).map Int.ofNat

/-- The live-reloadable age bounds (`AgeConfig` TypedDict in types.py). -/
structure AgeConfig where
  minAge : Int
  maxAge : Int
deriving DecidableEq, Repr

/-- Final range check of validator/age.py: inclusive on both ends. -/
def ageRange (v : Int) (cfg : AgeConfig) : VResult Int :=
  if ¬ (cfg.minAge ≤ v ∧ v ≤ cfg.maxAge) then .fail "AGE_OUT_OF_RANGE" else .ok v

/-- validator/age.py `validate_age`: bools rejected first (bool is a subclass
of int in Python), ints taken directly, strings stripped then parsed with
CPython `int()`, everything else rejected; then the inclusive range check. -/
def validateAge (age : PyVal) (cfg : AgeConfig) : VResult Int :=
  match age with
  | .bool _ => .fail "NOT_AN_INTEGER"
  | .int n => ageRange n cfg
  | .str s =>
    let t := pyStrip s
    if t = [] then .fail "EMPTY_AFTER_TRIM"
    else
      match pyIntStr t with
      | some v => ageRange v cfg
      | none => .fail "NOT_AN_INTEGER"
  | .other => .fail "NOT_AN_INTEGER"

/-- Final range check of validator/banner.py: fixed `[0, 99]` inclusive. -/
def bannerRange (v : Int) : VResult Int :=
  if ¬ (0 ≤ v ∧ v ≤ 99) then .fail "ID_OUT_OF_RANGE" else .ok v

/-- validator/banner.py `validate_banner_id`: same parsing rule as age,
fixed range `[0, 99]`. -/
def validateBannerId (bannerId : PyVal) : VResult Int :=
  match bannerId with
  | .bool _ => .fail "NOT_AN_INTEGER"
  | .int n => bannerRange n
  | .str s =>
    let t := pyStrip s
    if t = [] then .fail "EMPTY_AFTER_TRIM"
    else
      match pyIntStr t with
      | some v => bannerRange v
      | none => .fail "NOT_AN_INTEGER"
  | .other => .fail "NOT_AN_INTEGER"

/-- Single-pass character scan of validator/name.py: returns the first failure
code, or `none` when every character passes.  `isAlpha` is Python's
Unicode-aware `str.isalpha`, passed in as a parameter of the embedding
(see `validateName`); `lastWasSpace` is the loop flag of the source. -/
def nameScan (isAlpha : Char → Bool) : List Char → Bool → Option String
  | [], _ => none
  | c :: rest, lastWasSpace =>
    if pyIsSpace c ∧ c ≠ ' ' then some "NON_ASCII_WHITESPACE"
    else if c = ' ' then
      if lastWasSpace then some "DOUBLE_SPACE" else nameScan isAlpha rest true
    else if ¬ isAlpha c then some "NON_LETTER_CHAR"
    else nameScan isAlpha rest false

/-- validator/name.py `validate_name`.  The two Unicode library functions the
source calls are parameters of the embedding: `nfc` models
`unicodedata.normalize("NFC", ·)` and `isAlpha` models `str.isalpha`; theorems
about this definition assume only stated, true properties of NFC
(idempotence, closure of normal forms under stripping). -/
def validateName (nfc : List Char → List Char) (isAlpha : Char → Bool)
    (name : PyVal) : VResult (List Char) :=
  match name with
  | .str v =>
    let s := pyStrip (nfc v)
    if s = [] then .fail "EMPTY_AFTER_TRIM"
    else
      match nameScan isAlpha s false with
      | some code => .fail code
      | none => .ok s
  | _ => .fail "NOT_A_STRING"

/-- Remove every (left-to-right, non-overlapping) occurrence of `pat`,
Python `str.replace(pat, "")`, with explicit fuel so the definition reduces
in the kernel; `pyReplace` supplies fuel equal to the list length, which
always suffices since each step consumes at least one character. -/
def pyReplaceAux (pat : List Char) : Nat → List Char → List Char
  | 0, l => l
  | _ + 1, [] => []
  | fuel + 1, c :: rest =>
    if pat ≠ [] ∧ pat.isPrefixOf (c :: rest) then
      pyReplaceAux pat fuel ((c :: rest).drop pat.length)
    else c :: pyReplaceAux pat fuel rest

/-- Python `str.replace(pat, "")`. -/
def pyReplace (pat l : List Char) : List Char :=
  pyReplaceAux pat l.length l

/-- The cleaning step of CPython `uuid.UUID(hex=s)`:
`s.replace('urn:', '').replace('uuid:', '').strip('{\x7d').replace('-', '')`. -/
def uuidClean (s : List Char) : List Char :=
  (pyStripP (fun c => c = '{' || c = '}')
      (pyReplace "uuid:".toList (pyReplace "urn:".toList s))).filter (· ≠ '-')

/-- CPython `uuid.UUID(hex=s)`: clean, require exactly 32 remaining
characters, then `int(hex, 16)`.  Returns the 128-bit value, `none` on
`ValueError`. -/
def uuidParse (s : List Char) : Option Int :=
  let hx := uuidClean s
  if hx.length = 32 then pyInt16Str hx else none

/-- Hex digits of `n`, big-endian, zero-padded to `k` characters
(CPython `"%032x" % int` for `k = 32`); `Nat.digitChar` yields the
lowercase hex character of a value below 16. -/
def natToHexDigits : Nat → Nat → List Char
  | 0, _ => []
  | k + 1, n => natToHexDigits k (n / 16) ++ [Nat.digitChar (n % 16)]

/-- `str(uuid.UUID(...))`: 32 lowercase hex digits with hyphens in
8-4-4-4-12 grouping. -/
def uuidCanonical (n : Nat) : List Char :=
  (natToHexDigits 32 n).take 8 ++ '-' :: ((natToHexDigits 32 n).drop 8).take 4 ++
    '-' :: ((natToHexDigits 32 n).drop 12).take 4 ++
    '-' :: ((natToHexDigits 32 n).drop 16).take 4 ++
    '-' :: (natToHexDigits 32 n).drop 20

/-- validator/cookie.py `validate_cookie`: strip, reject empty, parse via
`uuid.UUID`, reject the nil UUID, return the canonical lowercase hyphenated
text. -/
def validateCookie (cookie : PyVal) : VResult (List Char) :=
  match cookie with
  | .str v =>
    let s := pyStrip v
    if s = [] then .fail "EMPTY_AFTER_TRIM"
    else
      match uuidParse s with
      | none => .fail "BAD_UUID"
      | some i =>
        if i = 0 then .fail "NIL_UUID" else .ok (uuidCanonical i.toNat)
  | _ => .fail "NOT_A_STRING"

/-! ### Config source (config.py) -/

/-- Built-in default lower age bound (config.py `DEFAULT_MIN_AGE`). -/
def DEFAULT_MIN_AGE : Int := 18

/-- Built-in default upper age bound (config.py `DEFAULT_MAX_AGE`). -/
def DEFAULT_MAX_AGE : Int := 120

/-- config.py `_env_int`: read an int from the environment (`none` models an
unset variable); `int(raw.strip())` on the raw text, falling back to the
default when missing or unparsable. -/
def envInt (raw : Option (List Char)) (default : Int) : Int :=
  match raw with
  | none => default
  | some r =>
    match pyIntStr (pyStrip r) with
    | some v => v
    | none => default

/-- config.py `_validate_age_bounds` as a predicate: the call raises iff
`min_age > max_age` or either bound is negative. -/
def validBounds (mn mx : Int) : Bool :=
  decide (mn ≤ mx ∧ 0 ≤ mn ∧ 0 ≤ mx)

/-- The resolution step of config.py `_reload_from_sources`: start from the
built-in defaults, overlay environment values, then config-file values
(each key independently, only when present with an integer value), then the
remembered CLI overrides. -/
def resolveBounds (envMin envMax : Option (List Char))
    (fileMin fileMax : Option Int) (cliMin cliMax : Option Int) : Int × Int :=
  let mn := envInt envMin DEFAULT_MIN_AGE
  let mx := envInt envMax DEFAULT_MAX_AGE
  let mn := match fileMin with | some v => v | none => mn
  let mx := match fileMax with | some v => v | none => mx
  let mn := match cliMin with | some v => v | none => mn
  let mx := match cliMax with | some v => v | none => mx
  (mn, mx)

/-- Live part of config.py `Config`: the remembered CLI overrides (they always
win, also across reloads) and the current validated age bounds. -/
structure ConfigState where
  cliMin : Option Int
  cliMax : Option Int
  age : Int × Int
deriving DecidableEq, Repr

/-- `Config.__init__` + `_reload_from_sources(initial=True)`: resolve from the
initial environment/file/CLI inputs; an invalid result raises (construction
fails, modelled as `none`). -/
def mkConfig (envMin envMax : Option (List Char)) (fileMin fileMax : Option Int)
    (cliMin cliMax : Option Int) : Option ConfigState :=
  let b := resolveBounds envMin envMax fileMin fileMax cliMin cliMax
  if validBounds b.1 b.2 then some ⟨cliMin, cliMax, b⟩ else none

/-- One observable input to `Config.reload_if_needed`: whether the poll
interval has elapsed (`now < self._next_check` gate), whether the backing
file's mtime differs from the recorded one, and the environment/file values
visible at that poll. -/
structure ReloadIn where
  timeReached : Bool
  mtimeChanged : Bool
  envMin : Option (List Char)
  envMax : Option (List Char)
  fileMin : Option Int
  fileMax : Option Int

/-- config.py `Config.reload_if_needed` together with
`_reload_from_sources(initial=False)`: rate-limit, mtime comparison, then
recompute; an invalid recomputation keeps the previous bounds (and hence
reports no change); a valid, different result is installed and reported. -/
def reloadStep (s : ConfigState) (i : ReloadIn) : Bool × ConfigState :=
  if ¬ i.timeReached then (false, s)
  else if ¬ i.mtimeChanged then (false, s)
  else
    let b := resolveBounds i.envMin i.envMax i.fileMin i.fileMax s.cliMin s.cliMax
    if validBounds b.1 b.2 then
      if b ≠ s.age then (true, { s with age := b }) else (false, s)
    else (false, s)

/-- A sequence of polls applied in order, keeping only the state. -/
def applyReloads (s : ConfigState) (l : List ReloadIn) : ConfigState :=
  l.foldl (fun st i => (reloadStep st i).2) s

/-! ### Error taxonomy and HTTP client (showads/errors.py, showads/client.py)

Float arithmetic of the source (backoff delays, retry hints) is modelled
over `ℚ`. -/

/-- Typed errors of showads/errors.py.  Retryable carriers keep the parsed
`Retry-After` hint (`parse_retry_after` yields a non-negative number of
seconds or `None`); `serverError` and `unexpectedStatus` keep the concrete
status code. -/
inductive ShowAdsErr where
  | badRequest
  | unauthorized
  | tooManyRequests (retryAfter : Option ℚ)
  | serverError (code : Nat) (retryAfter : Option ℚ)
  | transportError
  | unexpectedStatus (code : Option Nat)
deriving DecidableEq, Repr

/-- One observable outcome of `session.post`: a response with a status code
(and possibly a Retry-After hint), or a `requests.RequestException`
(which `_post_with_retry` converts via `from_transport`). -/
inductive Resp where
  | status (code : Nat) (retryAfter : Option ℚ)
  | transport
deriving DecidableEq, Repr

/-- showads/errors.py `raise_for_status` (plus the `from_transport` wrapping in
the client): `none` for 2xx, otherwise the typed error. -/
def raiseForStatus (r : Resp) : Option ShowAdsErr :=
  match r with
  | .transport => some .transportError
  | .status code retryAfter =>
    if 200 ≤ code ∧ code < 300 then none
    else if code = 400 then some .badRequest
    else if code = 401 then some .unauthorized
    else if code = 429 then some (.tooManyRequests retryAfter)
    else if 500 ≤ code ∧ code < 600 then some (.serverError code retryAfter)
    else some (.unexpectedStatus (some code))

/-- Which typed errors the retry loop's `except (TooManyRequests, ServerError,
TransportError)` clause catches. -/
def retryableErr : ShowAdsErr → Bool
  | .tooManyRequests _ => true
  | .serverError _ _ => true
  | .transportError => true
  | _ => false

/-- `getattr(retry_exc, "retry_after_s", None)` for the retryable errors. -/
def retryAfterOf : ShowAdsErr → Option ℚ
  | .tooManyRequests ra => ra
  | .serverError _ ra => ra
  | _ => none

/-- client.py `ShowAdsClient._compute_backoff`: honor a server hint (capped),
else exponential backoff capped then jittered by ±10% and floored at zero.
`r` models the `random.random()` draw in `[0, 1)`. -/
def computeBackoff (base cap : ℚ) (attempt : Nat) (retryAfter : Option ℚ)
    (r : ℚ) : ℚ :=
  match retryAfter with
  | some hint => min hint cap
  | none =>
    let delay := min (base * 2 ^ attempt) cap
    let jitter := delay * (1 / 10 * (r - 1 / 2) * 2)
    max 0 (delay + jitter)

/-- Result of `_post_with_retry`, with the observables the claims speak about:
how many reactive token refreshes (`AuthClient.on_unauthorized`) ran, how many
retry attempts were consumed from the budget, and which backoff sleeps were
performed.  `outOfResponses` is a model artifact: the supplied response list
ended while the loop would have issued another request. -/
inductive PwrResult where
  | success (refreshes attemptsUsed : Nat) (sleeps : List ℚ)
  | failure (e : ShowAdsErr) (refreshes attemptsUsed : Nat) (sleeps : List ℚ)
  | outOfResponses
deriving DecidableEq, Repr

/-- client.py `ShowAdsClient._post_with_retry`: the `while True` loop, driven
by the list of successive transport outcomes.  `attemptedRefresh` and
`attempt` are the loop variables of the source; `refreshes` counts
`on_unauthorized` calls and `sleeps` accumulates backoff sleeps (reversed on
exit), both purely observational.  `rand` supplies the jitter draw for the
backoff computed at a given attempt number. -/
def postWithRetry (maxRetries : Nat) (base cap : ℚ) (rand : Nat → ℚ) :
    List Resp → Bool → Nat → Nat → List ℚ → PwrResult
  | [], _, _, _, _ => .outOfResponses
  | r :: rest, attemptedRefresh, attempt, refreshes, sleeps =>
    match raiseForStatus r with
    | none => .success refreshes attempt sleeps.reverse
    | some .unauthorized =>
      if attemptedRefresh then .failure .unauthorized refreshes attempt sleeps.reverse
      else postWithRetry maxRetries base cap rand rest true attempt (refreshes + 1) sleeps
    | some e =>
      if retryableErr e then
        if maxRetries ≤ attempt then .failure e refreshes attempt sleeps.reverse
        else
          postWithRetry maxRetries base cap rand rest attemptedRefresh (attempt + 1) refreshes
            (computeBackoff base cap attempt (retryAfterOf e) (rand attempt) :: sleeps)
      else .failure e refreshes attempt sleeps.reverse

/-- Observable result of `send_single`: a returned boolean, a raised typed
error, or the out-of-responses model artifact. -/
inductive SingleResult where
  | ret (b : Bool)
  | raised (e : ShowAdsErr)
  | outOfResponses
deriving DecidableEq, Repr

/-- client.py `ShowAdsClient.send_single`: `True` when `_post_with_retry`
returns, `False` when it raises `BadRequest`, anything else propagates. -/
def sendSingle (maxRetries : Nat) (base cap : ℚ) (rand : Nat → ℚ)
    (resps : List Resp) : SingleResult :=
  match postWithRetry maxRetries base cap rand resps false 0 0 [] with
  | .success _ _ _ => .ret true
  | .failure .badRequest _ _ _ => .ret false
  | .failure e _ _ _ => .raised e
  | .outOfResponses => .outOfResponses

/-- A batch item, `{"VisitorCookie": ..., "BannerId": ...}`. -/
structure Item where
  visitorCookie : List Char
  bannerId : Int
deriving DecidableEq, Repr

/-- The fixed redaction placeholder used in fallback failure entries. -/
def REDACTED : List Char := "***redacted***".toList

/-- One entry of `BatchResult["failed"]`: the redacted item, the error class
name, and the status. -/
structure FailEntry where
  cookie : List Char
  bannerId : Int
  reason : String
  status : Option Nat
deriving DecidableEq, Repr

/-- `e.__class__.__name__` for the errors recorded during fallback. -/
def errClassName : ShowAdsErr → String
  | .badRequest => "BadRequest"
  | .unauthorized => "Unauthorized"
  | .tooManyRequests _ => "TooManyRequests"
  | .serverError _ _ => "ServerError"
  | .transportError => "TransportError"
  | .unexpectedStatus _ => "UnexpectedStatus"

/-- `e.status` for the errors recorded during fallback. -/
def errStatus : ShowAdsErr → Option Nat
  | .badRequest => some 400
  | .unauthorized => some 401
  | .tooManyRequests _ => some 429
  | .serverError c _ => some c
  | .transportError => none
  | .unexpectedStatus c => c

/-- Result of `send_bulk`: a `BatchResult`, a raised typed error, or the
out-of-responses model artifact. -/
inductive BulkOutcome where
  | result (sent : Nat) (failed : List FailEntry)
  | raised (e : ShowAdsErr)
  | outOfResponses
deriving DecidableEq, Repr

/-- The per-item fallback loop of `send_bulk` after a bulk 400: each item is
retried individually (its transport outcomes supplied alongside it); `True`
counts as sent, `False` records a redacted `BAD_REQUEST` entry,
`Unauthorized` re-raises immediately, a retryable error records a redacted
entry with its class name and status, and any other raised error propagates
uncaught. -/
def fallbackLoop (maxRetries : Nat) (base cap : ℚ) (rand : Nat → ℚ) :
    List (Item × List Resp) → Nat → List FailEntry → BulkOutcome
  | [], sent, failed => .result sent failed.reverse
  | (it, rs) :: rest, sent, failed =>
    match sendSingle maxRetries base cap rand rs with
    | .ret true => fallbackLoop maxRetries base cap rand rest (sent + 1) failed
    | .ret false =>
      fallbackLoop maxRetries base cap rand rest sent
        (⟨REDACTED, it.bannerId, "BAD_REQUEST", some 400⟩ :: failed)
    | .raised .unauthorized => .raised .unauthorized
    | .raised e =>
      if retryableErr e then
        fallbackLoop maxRetries base cap rand rest sent
          (⟨REDACTED, it.bannerId, errClassName e, errStatus e⟩ :: failed)
      else .raised e
    | .outOfResponses => .outOfResponses

/-- client.py `ShowAdsClient.send_bulk`: oversize batches raise `ValueError`
(not a `ShowAdsError`; modelled as `none`), a 2xx bulk response counts every
item sent, a 400 switches to the per-item fallback without retrying the bulk
call, and any other raised error propagates.  `items` pairs each item with
the transport outcomes its individual send would observe. -/
def sendBulk (maxRetries maxBatch : Nat) (base cap : ℚ) (rand : Nat → ℚ)
    (bulkResps : List Resp) (items : List (Item × List Resp)) :
    Option BulkOutcome :=
  if items.length > maxBatch then none
  else
    match postWithRetry maxRetries base cap rand bulkResps false 0 0 [] with
    | .success _ _ _ => some (.result items.length [])
    | .failure .badRequest _ _ _ => some (fallbackLoop maxRetries base cap rand items 0 [])
    | .failure e _ _ _ => some (.raised e)
    | .outOfResponses => some .outOfResponses

/-! ### Validation pipeline (pipeline.py) -/

/-- The summary counters of `run_pipeline`.  `reasons` is the multiset of
rejection codes recorded (the `Counter` of the source counts occurrences of
each code; wall-clock duration is not modelled). -/
structure Counters where
  processed : Nat
  valid : Nat
  invalid : Nat
  sent : Nat
  failed : Nat
  unsentValid : Nat
  reasons : List String
deriving DecidableEq, Repr

/-- The all-zero initial counters of `run_pipeline`. -/
def Counters.init : Counters := ⟨0, 0, 0, 0, 0, 0, []⟩

/-- The delivery behaviour one flush observes: the bulk call's transport
outcomes, the per-item transport outcomes by item position (used only when
the bulk call answers 400), and the jitter draws. -/
structure BulkBehavior where
  bulkResps : List Resp
  itemResps : Nat → List Resp
  rand : Nat → ℚ

/-- Result of pipeline.py `flush_batch`: updated counters and the batch buffer
left behind.  `propagated` models an exception that is not a `ShowAdsError`
escaping the `try` (e.g. the oversize `ValueError`) — the `finally` block has
still cleared the buffer.  `outOfModel` is the response-stream artifact. -/
inductive FlushResult where
  | ok (c : Counters) (batch : List Item)
  | propagated (batch : List Item)
  | outOfModel

/-- The batch buffer component of a flush result, where one exists. -/
def FlushResult.batchOf : FlushResult → Option (List Item)
  | .ok _ batch => some batch
  | .propagated batch => some batch
  | .outOfModel => none

/-- pipeline.py `flush_batch`: empty batches return immediately; otherwise
`send_bulk` runs, a returned `BatchResult` folds its counts into the summary,
a raised `ShowAdsError` counts the whole batch as `unsent_valid`, anything
else propagates — and the `finally` clears the buffer on every exit path. -/
def flushBatch (maxRetries maxBatch : Nat) (base cap : ℚ) (bhv : BulkBehavior)
    (c : Counters) (batch : List Item) : FlushResult :=
  if batch = [] then .ok c batch
  else
    match sendBulk maxRetries maxBatch base cap bhv.rand bhv.bulkResps
        (batch.enum.map (fun p => (p.2, bhv.itemResps p.1))) with
    | some (.result s f) =>
      .ok { c with sent := c.sent + s, failed := c.failed + f.length } []
    | some (.raised _) =>
      .ok { c with unsentValid := c.unsentValid + batch.length } []
    | some .outOfResponses => .outOfModel
    | none => .propagated []

/-- One CSV row as the pipeline sees it: the four raw field values
(`row.get(...)` of the source). -/
structure Row where
  name : PyVal
  age : PyVal
  cookie : PyVal
  bannerId : PyVal

/-- Per-row validation of `run_pipeline`: Name, Age, Cookie, Banner_id in that
fixed order, short-circuiting on the first failure; success yields the
delivery item built from the cookie and banner values. -/
def validateRow (nfc : List Char → List Char) (isAlpha : Char → Bool)
    (bounds : AgeConfig) (row : Row) : Except String Item :=
  match validateName nfc isAlpha row.name with
  | .fail code => .error code
  | .ok _ =>
    match validateAge row.age bounds with
    | .fail code => .error code
    | .ok _ =>
      match validateCookie row.cookie with
      | .fail code => .error code
      | .ok cookieVal =>
        match validateBannerId row.bannerId with
        | .fail code => .error code
        | .ok bannerVal => .ok ⟨cookieVal, bannerVal⟩

/-- Loop state of `run_pipeline`: counters, the batch buffer, and how many
flushes have run (selecting the next flush's delivery behaviour). -/
structure PipeState where
  counters : Counters
  batch : List Item
  flushIdx : Nat

/-- The row loop of `run_pipeline`, driven by the remaining rows.  `boundsAt`
gives the age-bounds snapshot in effect while row number `processed` is
handled (the source refreshes its `age_cfg` local from the config source at
reload checkpoints; the accounting below is the same for every such
schedule).  `bhvAt` gives the delivery behaviour of the n-th flush.  A
propagated flush exception or a model artifact aborts the run (`none`). -/
def pipelineRows (maxRetries maxBatch : Nat) (base cap : ℚ)
    (nfc : List Char → List Char) (isAlpha : Char → Bool)
    (boundsAt : Nat → AgeConfig) (bhvAt : Nat → BulkBehavior) (effBatch : Nat) :
    List Row → PipeState → Option PipeState
  | [], st => some st
  | row :: rest, st =>
    let c := st.counters
    let c := { c with processed := c.processed + 1 }
    match validateRow nfc isAlpha (boundsAt c.processed) row with
    | .error code =>
      pipelineRows maxRetries maxBatch base cap nfc isAlpha boundsAt bhvAt effBatch rest
        { st with counters := { c with invalid := c.invalid + 1, reasons := code :: c.reasons } }
    | .ok item =>
      let c := { c with valid := c.valid + 1 }
      let batch := st.batch ++ [item]
      if effBatch ≤ batch.length then
        match flushBatch maxRetries maxBatch base cap (bhvAt st.flushIdx) c batch with
        | .ok c2 batch2 =>
          pipelineRows maxRetries maxBatch base cap nfc isAlpha boundsAt bhvAt effBatch rest
            ⟨c2, batch2, st.flushIdx + 1⟩
        | _ => none
      else
        pipelineRows maxRetries maxBatch base cap nfc isAlpha boundsAt bhvAt effBatch rest
          ⟨c, batch, st.flushIdx⟩

/-- pipeline.py `run_pipeline`: process every row, then flush the leftover
partial batch; the returned counters are the summary (the source also reports
`duration_s`, not modelled). -/
def runPipeline (maxRetries maxBatch : Nat) (base cap : ℚ)
    (nfc : List Char → List Char) (isAlpha : Char → Bool)
    (boundsAt : Nat → AgeConfig) (bhvAt : Nat → BulkBehavior) (effBatch : Nat)
    (rows : List Row) : Option Counters :=
  match pipelineRows maxRetries maxBatch base cap nfc isAlpha boundsAt bhvAt effBatch
      rows ⟨Counters.init, [], 0⟩ with
  | none => none
  | some st =>
    match flushBatch maxRetries maxBatch base cap (bhvAt st.flushIdx) st.counters st.batch with
    | .ok c _ => some c
    | _ => none

/-! ### Claim C1: backoff bounds -/

/-- Claim C1, counterexample: the claim says the computed delay never exceeds
the configured cap on the exponential path as well, but with the defaults
`base = 0.5`, `cap = 8` at `attempt = 4` the capped delay is exactly `8`, and
a jitter draw of `r = 3/4` (legal: `0 ≤ r < 1`) yields
`8 + 8·(0.1·(3/4 − 1/2)·2) = 8.4 > 8`: the `±10%` jitter is applied after
capping and can push the delay above the cap. -/
theorem C1_counterexample_backoff_exceeds_cap :
    (0 : ℚ) ≤ 3 / 4 ∧ (3 : ℚ) / 4 < 1 ∧
      computeBackoff (1 / 2) 8 4 none (3 / 4) = 42 / 5 ∧ (8 : ℚ) < 42 / 5 := by
  refine ⟨by norm_num, by norm_num, ?_, by norm_num⟩
  simp only [computeBackoff]
  norm_num

/-- Claim C1 as amended: for every retry attempt the computed backoff delay is
never negative on either path; on the hinted path (with the non-negative hint
`parse_retry_after` produces) it never exceeds the cap, while on the
exponential path with jitter draw `r ∈ [0, 1)` it never exceeds the cap plus
10% of the cap (the jitter is applied after capping). -/
theorem C1_backoff_bounds (base cap : ℚ) (attempt : Nat) (hint r : ℚ)
    (hbase : 0 ≤ base) (hcap : 0 ≤ cap) (hhint : 0 ≤ hint)
    (hr0 : 0 ≤ r) (hr1 : r < 1) :
    (0 ≤ computeBackoff base cap attempt (some hint) r ∧
      computeBackoff base cap attempt (some hint) r ≤ cap) ∧
    (0 ≤ computeBackoff base cap attempt none r ∧
      computeBackoff base cap attempt none r ≤ cap + cap / 10) := by
  constructor
  · exact ⟨le_min hhint hcap, min_le_right _ _⟩
  · simp only [computeBackoff]
    set delay := min (base * 2 ^ attempt) cap with hdelay
    have hd0 : 0 ≤ delay :=
      le_min (mul_nonneg hbase (pow_nonneg (by norm_num) _)) hcap
    have hdc : delay ≤ cap := min_le_right _ _
    constructor
    · exact le_max_left _ _
    · have hbound : delay + delay * (1 / 10 * (r - 1 / 2) * 2) ≤ cap + cap / 10 := by
        nlinarith
      have hc10 : 0 ≤ cap + cap / 10 := by linarith
      exact max_le hc10 hbound

/-- Witness for `C1_backoff_bounds` at `base = 1/2`, `cap = 8`, `attempt = 4`,
`hint = 3`, `r = 3/4`. -/
theorem C1_backoff_bounds_witness :
    ((0 : ℚ) ≤ 1 / 2 ∧ (0 : ℚ) ≤ 8 ∧ (0 : ℚ) ≤ 3 ∧ (0 : ℚ) ≤ 3 / 4 ∧ (3 : ℚ) / 4 < 1) ∧
    ((0 ≤ computeBackoff (1 / 2) 8 4 (some 3) (3 / 4) ∧
        computeBackoff (1 / 2) 8 4 (some 3) (3 / 4) ≤ 8) ∧
      (0 ≤ computeBackoff (1 / 2) 8 4 none (3 / 4) ∧
        computeBackoff (1 / 2) 8 4 none (3 / 4) ≤ 8 + 8 / 10)) :=
  ⟨⟨by norm_num, by norm_num, by norm_num, by norm_num, by norm_num⟩,
    C1_backoff_bounds (1 / 2) 8 4 3 (3 / 4) (by norm_num) (by norm_num)
      (by norm_num) (by norm_num) (by norm_num)⟩

/-! ### Claim C2: at most one reactive refresh per call -/

/-- Number of `on_unauthorized` refreshes a finished call performed. -/
def PwrResult.refreshesOf : PwrResult → Nat
  | .success r _ _ => r
  | .failure _ r _ _ => r
  | .outOfResponses => 0

/-- Refresh bound invariant of the retry loop: starting from loop state
`(attemptedRefresh, attempt, refreshes, sleeps)`, the finished call reports at
most one refresh beyond `refreshes`, and none at all once `attemptedRefresh`
is set. -/
theorem postWithRetry_refreshes_le (m : Nat) (base cap : ℚ) (rand : Nat → ℚ) :
    ∀ (resps : List Resp) (b : Bool) (a rf : Nat) (s : List ℚ),
      (postWithRetry m base cap rand resps b a rf s).refreshesOf ≤
        rf + (if b then 0 else 1) := by
  intro resps
  induction resps with
  | nil => intro b a rf s; simp [postWithRetry, PwrResult.refreshesOf]
  | cons r rest ih =>
    intro b a rf s
    cases hr : raiseForStatus r with
    | none => simp [postWithRetry, hr, PwrResult.refreshesOf]
    | some e =>
      cases e with
      | unauthorized =>
        cases b with
        | false =>
          simp only [postWithRetry, hr, Bool.false_eq_true, if_false]
          exact le_trans (ih true a (rf + 1) s) (by simp)
        | true => simp [postWithRetry, hr, PwrResult.refreshesOf]
      | badRequest => simp [postWithRetry, hr, retryableErr, PwrResult.refreshesOf]
      | unexpectedStatus c => simp [postWithRetry, hr, retryableErr, PwrResult.refreshesOf]
      | tooManyRequests ra =>
        by_cases hm : m ≤ a
        · simp [postWithRetry, hr, retryableErr, hm, PwrResult.refreshesOf]
        · simpa [postWithRetry, hr, retryableErr, hm] using ih b (a + 1) rf _
      | serverError c ra =>
        by_cases hm : m ≤ a
        · simp [postWithRetry, hr, retryableErr, hm, PwrResult.refreshesOf]
        · simpa [postWithRetry, hr, retryableErr, hm] using ih b (a + 1) rf _
      | transportError =>
        by_cases hm : m ≤ a
        · simp [postWithRetry, hr, retryableErr, hm, PwrResult.refreshesOf]
        · simpa [postWithRetry, hr, retryableErr, hm] using ih b (a + 1) rf _

/-- Claim C2: every top-level `_post_with_retry` call performs at most one
reactive refresh; a first 401 performs exactly one refresh and retries
without touching the retry budget (the loop re-enters with the same
`attempt`, one more refresh, and the refresh guard set); 401 then 200
succeeds with exactly one refresh, zero budget consumed and no backoff
sleeps; 401 then 401 raises `Unauthorized` after exactly one refresh, with no
further retries — whatever responses would follow are never requested. -/
theorem C2_single_reactive_refresh (m : Nat) (base cap : ℚ) (rand : Nat → ℚ) :
    (∀ resps : List Resp,
      (postWithRetry m base cap rand resps false 0 0 []).refreshesOf ≤ 1) ∧
    (∀ (ra : Option ℚ) (rest : List Resp) (a rf : Nat) (s : List ℚ),
      postWithRetry m base cap rand (.status 401 ra :: rest) false a rf s =
        postWithRetry m base cap rand rest true a (rf + 1) s) ∧
    (∀ (ra ra2 : Option ℚ) (rest : List Resp),
      postWithRetry m base cap rand (.status 401 ra :: .status 200 ra2 :: rest)
        false 0 0 [] = .success 1 0 []) ∧
    (∀ (ra ra2 : Option ℚ) (rest : List Resp),
      postWithRetry m base cap rand (.status 401 ra :: .status 401 ra2 :: rest)
        false 0 0 [] = .failure .unauthorized 1 0 []) := by
  refine ⟨?_, ?_, ?_, ?_⟩
  · intro resps
    simpa using postWithRetry_refreshes_le m base cap rand resps false 0 0 []
  · intro ra rest a rf s
    simp [postWithRetry, raiseForStatus]
  · intro ra ra2 rest
    simp [postWithRetry, raiseForStatus]
  · intro ra ra2 rest
    simp [postWithRetry, raiseForStatus]

/-! ### Claim C4: sendSingle outcome mapping -/

/-- Claim C4: `send_single` returns `true` exactly when the underlying
`_post_with_retry` call (retries and the single reactive refresh included)
returns a 2xx success; it returns `false` exactly when that call raises
`BadRequest`; every other raised error propagates unchanged.  Concretely, an
immediate 400 yields `false` without consuming further responses, and an
immediate 2xx yields `true`. -/
theorem C4_sendSingle_mapping (m : Nat) (base cap : ℚ) (rand : Nat → ℚ) :
    (∀ resps : List Resp,
      (sendSingle m base cap rand resps = .ret true ↔
        ∃ rf a s, postWithRetry m base cap rand resps false 0 0 [] = .success rf a s)) ∧
    (∀ resps : List Resp,
      (sendSingle m base cap rand resps = .ret false ↔
        ∃ rf a s, postWithRetry m base cap rand resps false 0 0 [] =
          .failure .badRequest rf a s)) ∧
    (∀ (resps : List Resp) (e : ShowAdsErr) (rf a : Nat) (s : List ℚ),
      postWithRetry m base cap rand resps false 0 0 [] = .failure e rf a s →
      e ≠ .badRequest → sendSingle m base cap rand resps = .raised e) ∧
    (∀ (ra : Option ℚ) (rest : List Resp),
      sendSingle m base cap rand (.status 400 ra :: rest) = .ret false) ∧
    (∀ (c : Nat) (ra : Option ℚ) (rest : List Resp), 200 ≤ c → c < 300 →
      sendSingle m base cap rand (.status c ra :: rest) = .ret true) := by
  refine ⟨?_, ?_, ?_, ?_, ?_⟩
  · intro resps
    constructor
    · intro h
      cases hp : postWithRetry m base cap rand resps false 0 0 [] with
      | success rf a s => exact ⟨rf, a, s, rfl⟩
      | failure e rf a s =>
        exfalso
        cases e <;> simp [sendSingle, hp] at h
      | outOfResponses => simp [sendSingle, hp] at h
    · rintro ⟨rf, a, s, hp⟩
      simp [sendSingle, hp]
  · intro resps
    constructor
    · intro h
      cases hp : postWithRetry m base cap rand resps false 0 0 [] with
      | success rf a s => simp [sendSingle, hp] at h
      | failure e rf a s =>
        cases e <;> simp [sendSingle, hp] at h
        exact ⟨rf, a, s, rfl⟩
      | outOfResponses => simp [sendSingle, hp] at h
    · rintro ⟨rf, a, s, hp⟩
      simp [sendSingle, hp]
  · intro resps e rf a s hp hne
    cases e with
    | badRequest => exact absurd rfl hne
    | _ => simp [sendSingle, hp]
  · intro ra rest
    simp [sendSingle, postWithRetry, raiseForStatus, retryableErr]
  · intro c ra rest h1 h2
    have hcls : raiseForStatus (.status c ra) = none := by
      simp [raiseForStatus, h1, h2]
    simp [sendSingle, postWithRetry, hcls]

/-- Witness for `C4_sendSingle_mapping`: the hypothesis-bearing conjuncts at
concrete inputs — a call failing with a terminal 500 after an exhausted
budget propagates `ServerError`, and an immediate 204 is a 2xx success. -/
theorem C4_sendSingle_mapping_witness :
    (postWithRetry 0 0 0 (fun _ => 0) [.status 500 none] false 0 0 [] =
        .failure (.serverError 500 none) 0 0 [] ∧
      ShowAdsErr.serverError 500 none ≠ .badRequest ∧
      sendSingle 0 0 0 (fun _ => 0) [.status 500 none] =
        .raised (.serverError 500 none)) ∧
    (200 ≤ 204 ∧ 204 < 300 ∧
      sendSingle 0 0 0 (fun _ => 0) [.status 204 none] = .ret true) :=
  ⟨⟨by decide, by decide,
      (C4_sendSingle_mapping 0 0 0 (fun _ => 0)).2.2.1 [.status 500 none]
        (.serverError 500 none) 0 0 [] (by decide) (by decide)⟩,
    ⟨by decide, by decide,
      (C4_sendSingle_mapping 0 0 0 (fun _ => 0)).2.2.2.2 204 none []
        (by decide) (by decide)⟩⟩

/-! ### Claim C3: bulk 400 fallback -/

/-- Outcomes of an individual fallback send that the loop absorbs and
continues past: a returned boolean, or a raised retryable error. -/
def softSingle : SingleResult → Bool
  | .ret _ => true
  | .raised e => retryableErr e
  | .outOfResponses => false

/-- Did the individual send return `True`? -/
def sentSingle : SingleResult → Bool
  | .ret true => true
  | _ => false

/-- Outcomes that produce a failure entry: a returned `False`, or a raised
retryable error. -/
def failSoftSingle : SingleResult → Bool
  | .ret false => true
  | .raised e => retryableErr e
  | _ => false

/-- The failure entry an individual outcome contributes, if any. -/
def fallbackEntry (it : Item) : SingleResult → Option FailEntry
  | .ret false => some ⟨REDACTED, it.bannerId, "BAD_REQUEST", some 400⟩
  | .raised e =>
    if retryableErr e then some ⟨REDACTED, it.bannerId, errClassName e, errStatus e⟩
    else none
  | _ => none

/-- The failure list the fallback produces, stated directly as a filter-map
over the per-item outcomes. -/
def fallbackFailedSpec (m : Nat) (base cap : ℚ) (rand : Nat → ℚ)
    (items : List (Item × List Resp)) : List FailEntry :=
  items.filterMap (fun p => fallbackEntry p.1 (sendSingle m base cap rand p.2))

/-- An outcome contributes a failure entry exactly when it is a returned
`False` or a raised retryable error. -/
theorem fallbackEntry_isSome (it : Item) (o : SingleResult) :
    (fallbackEntry it o).isSome = failSoftSingle o := by
  cases o with
  | ret b => cases b <;> rfl
  | raised e => cases e <;> rfl
  | outOfResponses => rfl

/-- Unrolled accounting of the fallback loop when every item's individual
send resolves softly: the sent counter advances by the number of `True`
results and the failure accumulator gains exactly the spec entries. -/
theorem fallbackLoop_soft (m : Nat) (base cap : ℚ) (rand : Nat → ℚ) :
    ∀ (items : List (Item × List Resp)) (S : Nat) (F : List FailEntry),
      (∀ p ∈ items, softSingle (sendSingle m base cap rand p.2) = true) →
      fallbackLoop m base cap rand items S F =
        .result (S + items.countP (fun p => sentSingle (sendSingle m base cap rand p.2)))
          (F.reverse ++ fallbackFailedSpec m base cap rand items) := by
  intro items
  induction items with
  | nil => intro S F _; simp [fallbackLoop, fallbackFailedSpec]
  | cons hd rest ih =>
    intro S F hsoft
    obtain ⟨it, rs⟩ := hd
    have hhd := hsoft (it, rs) (List.mem_cons_self _ _)
    have hrest : ∀ p ∈ rest, softSingle (sendSingle m base cap rand p.2) = true :=
      fun p hp => hsoft p (List.mem_cons_of_mem _ hp)
    cases hs : sendSingle m base cap rand rs with
    | ret b =>
      cases b with
      | true =>
        rw [fallbackLoop, hs, ih (S + 1) F hrest]
        simp [fallbackFailedSpec, List.countP_cons, hs, sentSingle, fallbackEntry]
        omega
      | false =>
        rw [fallbackLoop, hs, ih S _ hrest]
        simp [fallbackFailedSpec, List.countP_cons, hs, sentSingle, fallbackEntry]
    | raised e =>
      have hret : retryableErr e = true := by
        simpa [softSingle, hs] using hhd
      have hnu : e ≠ .unauthorized := by
        intro he; rw [he] at hret; exact absurd hret (by decide)
      rw [fallbackLoop, hs]
      have hstep :
          (match (motive := SingleResult → BulkOutcome) SingleResult.raised e with
            | .ret true => fallbackLoop m base cap rand rest (S + 1) F
            | .ret false => fallbackLoop m base cap rand rest S
                (⟨REDACTED, it.bannerId, "BAD_REQUEST", some 400⟩ :: F)
            | .raised .unauthorized => .raised .unauthorized
            | .raised e =>
              if retryableErr e then
                fallbackLoop m base cap rand rest S
                  (⟨REDACTED, it.bannerId, errClassName e, errStatus e⟩ :: F)
              else .raised e
            | .outOfResponses => .outOfResponses) =
            fallbackLoop m base cap rand rest S
              (⟨REDACTED, it.bannerId, errClassName e, errStatus e⟩ :: F) := by
        cases e <;> simp_all [retryableErr]
      rw [hstep, ih S _ hrest]
      simp [fallbackFailedSpec, List.countP_cons, hs, sentSingle, fallbackEntry, hret]
    | outOfResponses => simp [softSingle, hs] at hhd

/-- An `Unauthorized` raised by an individual fallback send aborts the loop
immediately, whatever soft outcomes preceded it. -/
theorem fallbackLoop_unauthorized (m : Nat) (base cap : ℚ) (rand : Nat → ℚ) :
    ∀ (pre : List (Item × List Resp)) (p : Item × List Resp)
      (rest : List (Item × List Resp)) (S : Nat) (F : List FailEntry),
      (∀ q ∈ pre, softSingle (sendSingle m base cap rand q.2) = true) →
      sendSingle m base cap rand p.2 = .raised .unauthorized →
      fallbackLoop m base cap rand (pre ++ p :: rest) S F = .raised .unauthorized := by
  intro pre
  induction pre with
  | nil =>
    intro p rest S F _ hp
    obtain ⟨it, rs⟩ := p
    rw [List.nil_append, fallbackLoop, hp]
  | cons hd tl ih =>
    intro p rest S F hsoft hp
    obtain ⟨it, rs⟩ := hd
    have hhd := hsoft (it, rs) (List.mem_cons_self _ _)
    have htl : ∀ q ∈ tl, softSingle (sendSingle m base cap rand q.2) = true :=
      fun q hq => hsoft q (List.mem_cons_of_mem _ hq)
    cases hs : sendSingle m base cap rand rs with
    | ret b =>
      cases b with
      | true => rw [List.cons_append, fallbackLoop, hs]; exact ih p rest _ _ htl hp
      | false => rw [List.cons_append, fallbackLoop, hs]; exact ih p rest _ _ htl hp
    | raised e =>
      have hret : retryableErr e = true := by
        simpa [softSingle, hs] using hhd
      rw [List.cons_append, fallbackLoop, hs]
      have hstep :
          (match (motive := SingleResult → BulkOutcome) SingleResult.raised e with
            | .ret true => fallbackLoop m base cap rand (tl ++ p :: rest) (S + 1) F
            | .ret false => fallbackLoop m base cap rand (tl ++ p :: rest) S
                (⟨REDACTED, it.bannerId, "BAD_REQUEST", some 400⟩ :: F)
            | .raised .unauthorized => .raised .unauthorized
            | .raised e =>
              if retryableErr e then
                fallbackLoop m base cap rand (tl ++ p :: rest) S
                  (⟨REDACTED, it.bannerId, errClassName e, errStatus e⟩ :: F)
              else .raised e
            | .outOfResponses => .outOfResponses) =
            fallbackLoop m base cap rand (tl ++ p :: rest) S
              (⟨REDACTED, it.bannerId, errClassName e, errStatus e⟩ :: F) := by
        cases e <;> simp_all [retryableErr]
      rw [hstep]
      exact ih p rest _ _ htl hp
    | outOfResponses => simp [softSingle, hs] at hhd

/-- Each item with a `False` or retryable-error outcome contributes exactly
one failure entry. -/
theorem fallbackFailedSpec_length (m : Nat) (base cap : ℚ) (rand : Nat → ℚ) :
    ∀ items : List (Item × List Resp),
      (fallbackFailedSpec m base cap rand items).length =
        items.countP (fun p => failSoftSingle (sendSingle m base cap rand p.2)) := by
  intro items
  induction items with
  | nil => rfl
  | cons p rest ih =>
    rw [fallbackFailedSpec, List.filterMap_cons, List.countP_cons,
      ← fallbackEntry_isSome p.1]
    rw [fallbackFailedSpec] at ih
    cases hfe : fallbackEntry p.1 (sendSingle m base cap rand p.2) <;>
      simp [hfe, ih]

/-- Every failure entry the fallback produces carries the redaction
placeholder in its cookie field. -/
theorem fallbackFailedSpec_redacted (m : Nat) (base cap : ℚ) (rand : Nat → ℚ)
    (items : List (Item × List Resp)) :
    ∀ e ∈ fallbackFailedSpec m base cap rand items, e.cookie = REDACTED := by
  intro e he
  rw [fallbackFailedSpec, List.mem_filterMap] at he
  obtain ⟨p, _, hp⟩ := he
  cases ho : sendSingle m base cap rand p.2 with
  | ret b =>
    cases b with
    | false =>
      rw [ho] at hp
      simp only [fallbackEntry, Option.some.injEq] at hp
      rw [← hp]
    | true => rw [ho] at hp; simp [fallbackEntry] at hp
  | raised err =>
    rw [ho] at hp
    by_cases hr : retryableErr err = true
    · have : fallbackEntry p.1 (.raised err) =
          some ⟨REDACTED, p.1.bannerId, errClassName err, errStatus err⟩ := by
        cases err <;> simp_all [fallbackEntry, retryableErr]
      rw [this, Option.some.injEq] at hp
      rw [← hp]
    · have : fallbackEntry p.1 (.raised err) = none := by
        cases err <;> simp_all [fallbackEntry, retryableErr]
      rw [this] at hp
      exact absurd hp (by simp)
  | outOfResponses => rw [ho] at hp; simp [fallbackEntry] at hp

/-- Claim C3: a batch whose bulk call is answered 400 is not retried at the
bulk level (the 400 raises `BadRequest` immediately, consuming no further
responses and no retry budget), and `send_bulk` then falls back to per-item
sends: when every individual outcome is soft, the reported `sent` equals the
number of items whose individual send returned `True` and the failure list is
exactly one entry per `False`-or-retryable item, each with the fixed
redaction placeholder as its cookie (never an original cookie value, which is
distinct from the placeholder); an `Unauthorized` raised during fallback
propagates immediately. -/
theorem C3_bulk400_fallback (m mb : Nat) (base cap : ℚ) (rand : Nat → ℚ) :
    (∀ (ra : Option ℚ) (rest : List Resp),
      postWithRetry m base cap rand (.status 400 ra :: rest) false 0 0 [] =
        .failure .badRequest 0 0 []) ∧
    (∀ (bulkResps : List Resp) (items : List (Item × List Resp))
        (rf a : Nat) (s : List ℚ),
      items.length ≤ mb →
      postWithRetry m base cap rand bulkResps false 0 0 [] =
        .failure .badRequest rf a s →
      sendBulk m mb base cap rand bulkResps items =
        some (fallbackLoop m base cap rand items 0 [])) ∧
    (∀ items : List (Item × List Resp),
      (∀ p ∈ items, softSingle (sendSingle m base cap rand p.2) = true) →
      fallbackLoop m base cap rand items 0 [] =
        .result (items.countP (fun p => sentSingle (sendSingle m base cap rand p.2)))
          (fallbackFailedSpec m base cap rand items)) ∧
    (∀ items : List (Item × List Resp),
      (fallbackFailedSpec m base cap rand items).length =
        items.countP (fun p => failSoftSingle (sendSingle m base cap rand p.2)) ∧
      ∀ e ∈ fallbackFailedSpec m base cap rand items,
        e.cookie = REDACTED ∧ ∀ orig : List Char, orig ≠ REDACTED → e.cookie ≠ orig) ∧
    (∀ (pre : List (Item × List Resp)) (p : Item × List Resp)
        (rest : List (Item × List Resp)),
      (∀ q ∈ pre, softSingle (sendSingle m base cap rand q.2) = true) →
      sendSingle m base cap rand p.2 = .raised .unauthorized →
      fallbackLoop m base cap rand (pre ++ p :: rest) 0 [] = .raised .unauthorized) := by
  refine ⟨?_, ?_, ?_, ?_, ?_⟩
  · intro ra rest
    simp [postWithRetry, raiseForStatus, retryableErr]
  · intro bulkResps items rf a s hlen hp
    rw [sendBulk, if_neg (by omega), hp]
  · intro items hsoft
    simpa using fallbackLoop_soft m base cap rand items 0 [] hsoft
  · intro items
    refine ⟨fallbackFailedSpec_length m base cap rand items, ?_⟩
    intro e he
    have hred := fallbackFailedSpec_redacted m base cap rand items e he
    exact ⟨hred, fun orig hne => by rw [hred]; exact fun h => hne h.symm⟩
  · exact fun pre p rest h1 h2 =>
      fallbackLoop_unauthorized m base cap rand pre p rest 0 [] h1 h2

/-- Witness for `C3_bulk400_fallback`: the spec's bulk-fallback scenario — a
bulk call answered 400 over two items whose individual sends resolve 200 then
400 reports one sent item and one failure entry whose cookie is the
placeholder. -/
theorem C3_bulk400_fallback_witness :
    (([(Item.mk "c1".toList 1, [Resp.status 200 none]),
        (Item.mk "c2".toList 2, [Resp.status 400 none])] :
          List (Item × List Resp)).length ≤ 2 ∧
      postWithRetry 0 0 0 (fun _ => 0) [.status 400 none] false 0 0 [] =
        .failure .badRequest 0 0 []) ∧
    sendBulk 0 2 0 0 (fun _ => 0) [.status 400 none]
        [(Item.mk "c1".toList 1, [Resp.status 200 none]),
          (Item.mk "c2".toList 2, [Resp.status 400 none])] =
      some (fallbackLoop 0 0 0 (fun _ => 0)
        [(Item.mk "c1".toList 1, [Resp.status 200 none]),
          (Item.mk "c2".toList 2, [Resp.status 400 none])] 0 []) ∧
    fallbackLoop 0 0 0 (fun _ => 0)
        [(Item.mk "c1".toList 1, [Resp.status 200 none]),
          (Item.mk "c2".toList 2, [Resp.status 400 none])] 0 [] =
      .result 1 [⟨REDACTED, 2, "BAD_REQUEST", some 400⟩] :=
  ⟨⟨by decide, by decide⟩,
    (C3_bulk400_fallback 0 2 0 0 (fun _ => 0)).2.1 [.status 400 none]
      [(Item.mk "c1".toList 1, [Resp.status 200 none]),
        (Item.mk "c2".toList 2, [Resp.status 400 none])] 0 0 []
      (by decide) (by decide),
    by decide⟩

/-! ### Claim C7: flush accounting and buffer clearing -/

/-- Claim C7: for a non-empty batch, a flush whose `send_bulk` returns a
`BatchResult` folds the sent and failed counts into the summary counters,
and one whose `send_bulk` raises a typed error adds the full batch size to
`unsent_valid`; and on every exit path that leaves a buffer behind —
success, counted failure, or propagated non-`ShowAdsError` — that buffer is
empty. -/
theorem C7_flush_accounting (m mb : Nat) (base cap : ℚ) (bhv : BulkBehavior)
    (c : Counters) (batch : List Item) :
    (∀ (s : Nat) (f : List FailEntry),
      batch ≠ [] →
      sendBulk m mb base cap bhv.rand bhv.bulkResps
          (batch.enum.map (fun p => (p.2, bhv.itemResps p.1))) = some (.result s f) →
      flushBatch m mb base cap bhv c batch =
        .ok { c with sent := c.sent + s, failed := c.failed + f.length } []) ∧
    (∀ e : ShowAdsErr,
      batch ≠ [] →
      sendBulk m mb base cap bhv.rand bhv.bulkResps
          (batch.enum.map (fun p => (p.2, bhv.itemResps p.1))) = some (.raised e) →
      flushBatch m mb base cap bhv c batch =
        .ok { c with unsentValid := c.unsentValid + batch.length } []) ∧
    (∀ l : List Item,
      (flushBatch m mb base cap bhv c batch).batchOf = some l → l = []) := by
  refine ⟨?_, ?_, ?_⟩
  · intro s f hne hsb
    rw [flushBatch, if_neg hne, hsb]
  · intro e hne hsb
    rw [flushBatch, if_neg hne, hsb]
  · intro l hl
    by_cases hb : batch = []
    · rw [flushBatch, if_pos hb] at hl
      simp only [FlushResult.batchOf, Option.some.injEq] at hl
      rw [← hl, hb]
    · rw [flushBatch, if_neg hb] at hl
      cases hsb : sendBulk m mb base cap bhv.rand bhv.bulkResps
          (batch.enum.map (fun p => (p.2, bhv.itemResps p.1))) with
      | none =>
        simp [hsb, FlushResult.batchOf] at hl
        exact hl
      | some o =>
        cases o <;> simp [hsb, FlushResult.batchOf] at hl <;> exact hl

/-- Witness for `C7_flush_accounting`: a singleton batch whose bulk call
answers 200 folds one sent item into the counters and clears the buffer. -/
theorem C7_flush_accounting_witness :
    (([Item.mk "c".toList 7] : List Item) ≠ [] ∧
      sendBulk 0 1 0 0 (fun _ => (0 : ℚ)) [Resp.status 200 none]
          (([Item.mk "c".toList 7] : List Item).enum.map
            (fun p => (p.2, (fun _ => ([] : List Resp)) p.1))) =
        some (.result 1 [])) ∧
    flushBatch 0 1 0 0 ⟨[Resp.status 200 none], fun _ => [], fun _ => 0⟩
        Counters.init [Item.mk "c".toList 7] =
      .ok { Counters.init with
              sent := Counters.init.sent + 1,
              failed := Counters.init.failed + ([] : List FailEntry).length } [] :=
  ⟨⟨by decide, by decide⟩,
    (C7_flush_accounting 0 1 0 0 ⟨[Resp.status 200 none], fun _ => [], fun _ => 0⟩
        Counters.init [Item.mk "c".toList 7]).1 1 [] (by decide) (by decide)⟩

/-! ### Claims C5 and C6: config invariant and precedence -/

/-- A poll step only ever installs bounds the validator accepted. -/
theorem reloadStep_preserves_valid (s : ConfigState) (i : ReloadIn)
    (h : validBounds s.age.1 s.age.2 = true) :
    validBounds (reloadStep s i).2.age.1 (reloadStep s i).2.age.2 = true := by
  rw [reloadStep]
  by_cases ht : i.timeReached
  · by_cases hm : i.mtimeChanged
    · simp only [ht, hm, Bool.not_true, if_false]
      set b := resolveBounds i.envMin i.envMax i.fileMin i.fileMax s.cliMin s.cliMax with hb
      by_cases hv : validBounds b.1 b.2 = true
      · by_cases hne : b ≠ s.age
        · simp [hv, hne]
        · simpa [hv, hne] using h
      · simp only [Bool.not_eq_true] at hv
        simpa [hv] using h
    · simpa [ht, hm] using h
  · simpa [ht] using h

/-- Any sequence of polls keeps the bounds valid. -/
theorem applyReloads_preserves_valid (l : List ReloadIn) :
    ∀ s : ConfigState, validBounds s.age.1 s.age.2 = true →
      validBounds (applyReloads s l).age.1 (applyReloads s l).age.2 = true := by
  induction l with
  | nil => intro s h; exact h
  | cons i rest ih =>
    intro s h
    rw [applyReloads, List.foldl_cons]
    exact ih _ (reloadStep_preserves_valid s i h)

/-- Claim C5: a config source whose construction succeeded keeps
`0 ≤ min_age ≤ max_age` as an invariant of its bounds snapshot across every
sequence of polls, and a poll whose recomputed bounds fail validation leaves
the state unchanged and reports no change — whatever the time and mtime
gates say. -/
theorem C5_bounds_invariant (envM envX : Option (List Char))
    (fM fX cM cX : Option Int) (s : ConfigState) (l : List ReloadIn) :
    (mkConfig envM envX fM fX cM cX = some s →
      0 ≤ (applyReloads s l).age.1 ∧
        (applyReloads s l).age.1 ≤ (applyReloads s l).age.2) ∧
    (∀ (t : ConfigState) (i : ReloadIn),
      validBounds
          (resolveBounds i.envMin i.envMax i.fileMin i.fileMax t.cliMin t.cliMax).1
          (resolveBounds i.envMin i.envMax i.fileMin i.fileMax t.cliMin t.cliMax).2 =
        false →
      reloadStep t i = (false, t)) := by
  constructor
  · intro hmk
    have hs : validBounds s.age.1 s.age.2 = true := by
      rw [mkConfig] at hmk
      set b := resolveBounds envM envX fM fX cM cX with hb
      by_cases hv : validBounds b.1 b.2 = true
      · rw [if_pos hv, Option.some.injEq] at hmk
        rw [← hmk]
        exact hv
      · rw [if_neg hv] at hmk
        exact absurd hmk (by simp)
    have := applyReloads_preserves_valid l s hs
    have h2 := of_decide_eq_true this
    exact ⟨h2.2.1, h2.1⟩
  · intro t i hv
    rw [reloadStep]
    by_cases ht : i.timeReached
    · by_cases hm : i.mtimeChanged
      · simp [ht, hm, hv]
      · simp [ht, hm]
    · simp [ht]

/-- Witness for `C5_bounds_invariant`: default construction, then a poll whose
file supplies the invalid pair 50/10 — the snapshot stays 18/120 and the
rejecting poll returns `false` with the state unchanged. -/
theorem C5_bounds_invariant_witness :
    (mkConfig none none none none none none =
        some ⟨none, none, (18, 120)⟩ ∧
      0 ≤ (applyReloads ⟨none, none, (18, 120)⟩
          [⟨true, true, none, none, some 50, some 10⟩]).age.1 ∧
        (applyReloads ⟨none, none, (18, 120)⟩
            [⟨true, true, none, none, some 50, some 10⟩]).age.1 ≤
          (applyReloads ⟨none, none, (18, 120)⟩
              [⟨true, true, none, none, some 50, some 10⟩]).age.2) ∧
    (validBounds
        (resolveBounds none none (some 50) (some 10) none none).1
        (resolveBounds none none (some 50) (some 10) none none).2 = false ∧
      reloadStep ⟨none, none, (18, 120)⟩ ⟨true, true, none, none, some 50, some 10⟩ =
        (false, ⟨none, none, (18, 120)⟩)) :=
  ⟨⟨by decide,
      (C5_bounds_invariant none none none none none none ⟨none, none, (18, 120)⟩
          [⟨true, true, none, none, some 50, some 10⟩]).1 (by decide)⟩,
    ⟨by decide,
      (C5_bounds_invariant none none none none none none ⟨none, none, (18, 120)⟩
          []).2 ⟨none, none, (18, 120)⟩ ⟨true, true, none, none, some 50, some 10⟩
        (by decide)⟩⟩

/-- With both CLI overrides present, resolution returns exactly them. -/
theorem resolveBounds_cli (envM envX : Option (List Char)) (fM fX : Option Int)
    (a b : Int) : resolveBounds envM envX fM fX (some a) (some b) = (a, b) := rfl

/-- A state whose age already equals its own CLI overrides is a fixed point
of every poll. -/
theorem reloadStep_cli_fixed (a b : Int) (t : ConfigState) (i : ReloadIn)
    (hmin : t.cliMin = some a) (hmax : t.cliMax = some b) (hage : t.age = (a, b)) :
    reloadStep t i = (false, t) := by
  rw [reloadStep]
  by_cases ht : i.timeReached
  · by_cases hm : i.mtimeChanged
    · have hres : resolveBounds i.envMin i.envMax i.fileMin i.fileMax t.cliMin t.cliMax =
          (a, b) := by rw [hmin, hmax]; rfl
      simp [ht, hm, hres, hage]
    · simp [ht, hm]
  · simp [ht]

/-- Claim C6: resolved age bounds follow the precedence explicit-override >
config-file > environment > built-in default, per key: with defaults 18/120,
environment 30/40, file 25/35 and override 50/60 the result is 50/60;
without the override it is 25/35; without the file it is 30/40; without any
source it is the defaults; and a construction carrying explicit overrides
keeps exactly those bounds across every later sequence of polls. -/
theorem C6_precedence :
    resolveBounds (some "30".toList) (some "40".toList) (some 25) (some 35)
        (some 50) (some 60) = (50, 60) ∧
    resolveBounds (some "30".toList) (some "40".toList) (some 25) (some 35)
        none none = (25, 35) ∧
    resolveBounds (some "30".toList) (some "40".toList) none none
        none none = (30, 40) ∧
    resolveBounds none none none none none none = (18, 120) ∧
    (∀ (a b : Int) (envM envX : Option (List Char)) (fM fX : Option Int)
        (s : ConfigState) (l : List ReloadIn),
      mkConfig envM envX fM fX (some a) (some b) = some s →
      (applyReloads s l).age = (a, b)) := by
  refine ⟨by decide, by decide, by decide, by decide, ?_⟩
  intro a b envM envX fM fX s l hmk
  have hsfields : s.cliMin = some a ∧ s.cliMax = some b ∧ s.age = (a, b) := by
    rw [mkConfig, resolveBounds_cli] at hmk
    by_cases hv : validBounds a b = true
    · rw [if_pos hv, Option.some.injEq] at hmk
      rw [← hmk]
      exact ⟨rfl, rfl, rfl⟩
    · rw [if_neg hv] at hmk
      exact absurd hmk (by simp)
  have hfix : ∀ t : ConfigState, t.cliMin = some a → t.cliMax = some b →
      t.age = (a, b) → applyReloads t l = t := by
    induction l with
    | nil => intro t _ _ _; rfl
    | cons i rest ih =>
      intro t h1 h2 h3
      rw [applyReloads, List.foldl_cons, reloadStep_cli_fixed a b t i h1 h2 h3]
      exact ih t h1 h2 h3
  rw [hfix s hsfields.1 hsfields.2.1 hsfields.2.2]
  exact hsfields.2.2

/-- Witness for `C6_precedence`: constructing with overrides 50/60 over
conflicting environment and file values, then polling with yet another file
value, still reports 50/60. -/
theorem C6_precedence_witness :
    mkConfig (some "30".toList) (some "40".toList) (some 25) (some 35)
        (some 50) (some 60) = some ⟨some 50, some 60, (50, 60)⟩ ∧
    (applyReloads ⟨some 50, some 60, (50, 60)⟩
        [⟨true, true, none, none, some 1, some 2⟩]).age = (50, 60) :=
  ⟨by decide,
    (C6_precedence).2.2.2.2 50 60 (some "30".toList) (some "40".toList)
      (some 25) (some 35) ⟨some 50, some 60, (50, 60)⟩
      [⟨true, true, none, none, some 1, some 2⟩] (by decide)⟩

/-! ### Claim C10: summary counters partition the input -/

/-- A finished fallback accounts every item exactly once: each contributes
either to the sent counter or to the failure list. -/
theorem fallbackLoop_result_card (m : Nat) (base cap : ℚ) (rand : Nat → ℚ) :
    ∀ (items : List (Item × List Resp)) (S : Nat) (F : List FailEntry)
      (s : Nat) (f : List FailEntry),
      fallbackLoop m base cap rand items S F = .result s f →
      s + f.length = S + F.length + items.length := by
  intro items
  induction items with
  | nil =>
    intro S F s f h
    rw [fallbackLoop] at h
    cases h
    simp
  | cons hd rest ih =>
    intro S F s f h
    obtain ⟨it, rs⟩ := hd
    rw [fallbackLoop] at h
    cases ho : sendSingle m base cap rand rs with
    | ret b =>
      rw [ho] at h
      cases b with
      | false =>
        simp only at h
        have := ih S _ s f h
        simp at this
        simp
        omega
      | true =>
        simp only at h
        have := ih (S + 1) F s f h
        simp
        omega
    | raised e =>
      rw [ho] at h
      cases e with
      | unauthorized => simp at h
      | badRequest => simp [retryableErr] at h
      | unexpectedStatus c => simp [retryableErr] at h
      | tooManyRequests ra =>
        simp only [retryableErr, if_true] at h
        have := ih S _ s f h
        simp at this
        simp
        omega
      | serverError c ra =>
        simp only [retryableErr, if_true] at h
        have := ih S _ s f h
        simp at this
        simp
        omega
      | transportError =>
        simp only [retryableErr, if_true] at h
        have := ih S _ s f h
        simp at this
        simp
        omega
    | outOfResponses => rw [ho] at h; cases h

/-- A `BatchResult` returned by `send_bulk` accounts every item exactly once:
`sent` plus the number of failure entries equals the batch size. -/
theorem sendBulk_result_card (m mb : Nat) (base cap : ℚ) (rand : Nat → ℚ)
    (bulkResps : List Resp) (items : List (Item × List Resp)) (s : Nat)
    (f : List FailEntry) :
    sendBulk m mb base cap rand bulkResps items = some (.result s f) →
    s + f.length = items.length := by
  intro h
  rw [sendBulk] at h
  by_cases hlen : items.length > mb
  · rw [if_pos hlen] at h; cases h
  · rw [if_neg hlen] at h
    cases hp : postWithRetry m base cap rand bulkResps false 0 0 [] with
    | success rf a sl =>
      rw [hp] at h
      simp only [Option.some.injEq, BulkOutcome.result.injEq] at h
      rw [← h.1, ← h.2]
      simp
    | failure e rf a sl =>
      rw [hp] at h
      cases e with
      | badRequest =>
        simp only [Option.some.injEq] at h
        simpa using fallbackLoop_result_card m base cap rand items 0 [] s f h
      | unauthorized => simp at h
      | tooManyRequests ra => simp at h
      | serverError c ra => simp at h
      | transportError => simp at h
      | unexpectedStatus c => simp at h
    | outOfResponses => rw [hp] at h; simp at h

/-- Accounting invariant of the pipeline loop: processed rows split into valid
and invalid, valid items split into sent, failed, unsent and still-buffered,
and the recorded rejection reasons are in bijection with the invalid rows. -/
def CountersInv (c : Counters) (batchLen : Nat) : Prop :=
  c.processed = c.valid + c.invalid ∧
  c.valid = c.sent + c.failed + c.unsentValid + batchLen ∧
  c.reasons.length = c.invalid

/-- A flush that returns preserves the accounting invariant and leaves an
empty buffer. -/
theorem flushBatch_ok_inv (m mb : Nat) (base cap : ℚ) (bhv : BulkBehavior)
    (c : Counters) (batch : List Item) (c2 : Counters) (batch2 : List Item)
    (h : flushBatch m mb base cap bhv c batch = .ok c2 batch2)
    (hinv : CountersInv c batch.length) : CountersInv c2 batch2.length ∧ batch2 = [] := by
  by_cases hb : batch = []
  · rw [flushBatch, if_pos hb] at h
    cases h
    subst hb
    exact ⟨hinv, rfl⟩
  · rw [flushBatch, if_neg hb] at h
    cases hsb : sendBulk m mb base cap bhv.rand bhv.bulkResps
        (batch.enum.map (fun p => (p.2, bhv.itemResps p.1))) with
    | none => rw [hsb] at h; cases h
    | some o =>
      rw [hsb] at h
      cases o with
      | result s f =>
        cases h
        have hcard := sendBulk_result_card m mb base cap bhv.rand bhv.bulkResps
          (batch.enum.map (fun p => (p.2, bhv.itemResps p.1))) s f hsb
        simp only [List.length_map, List.enum_length] at hcard
        obtain ⟨h1, h2, h3⟩ := hinv
        exact ⟨⟨h1, by simp; omega, h3⟩, rfl⟩
      | raised e =>
        cases h
        obtain ⟨h1, h2, h3⟩ := hinv
        exact ⟨⟨h1, by simp; omega, h3⟩, rfl⟩
      | outOfResponses => cases h

/-- The row loop preserves the accounting invariant. -/
theorem pipelineRows_inv (m mb : Nat) (base cap : ℚ)
    (nfc : List Char → List Char) (isAlpha : Char → Bool)
    (boundsAt : Nat → AgeConfig) (bhvAt : Nat → BulkBehavior) (effBatch : Nat) :
    ∀ (rows : List Row) (st st' : PipeState),
      pipelineRows m mb base cap nfc isAlpha boundsAt bhvAt effBatch rows st = some st' →
      CountersInv st.counters st.batch.length →
      CountersInv st'.counters st'.batch.length := by
  intro rows
  induction rows with
  | nil =>
    intro st st' h hinv
    rw [pipelineRows] at h
    cases h
    exact hinv
  | cons row rest ih =>
    intro st st' h hinv
    obtain ⟨h1, h2, h3⟩ := hinv
    rw [pipelineRows] at h
    dsimp only at h
    cases hv : validateRow nfc isAlpha (boundsAt (st.counters.processed + 1)) row with
    | error code =>
      rw [hv] at h
      dsimp only at h
      refine ih _ st' h ?_
      refine ⟨by simp; omega, by simpa using h2, by simp; omega⟩
    | ok item =>
      rw [hv] at h
      dsimp only at h
      by_cases hfull : effBatch ≤ (st.batch ++ [item]).length
      · rw [if_pos hfull] at h
        cases hf : flushBatch m mb base cap (bhvAt st.flushIdx)
            { st.counters with
                processed := st.counters.processed + 1,
                valid := st.counters.valid + 1 } (st.batch ++ [item]) with
        | ok c2 b2 =>
          rw [hf] at h
          have hpre : CountersInv
              { st.counters with
                  processed := st.counters.processed + 1,
                  valid := st.counters.valid + 1 } (st.batch ++ [item]).length := by
            refine ⟨by simp; omega, by simp; omega, by simpa using h3⟩
          have := flushBatch_ok_inv m mb base cap (bhvAt st.flushIdx) _ _ _ _ hf hpre
          exact ih _ st' h this.1
        | propagated b2 => rw [hf] at h; cases h
        | outOfModel => rw [hf] at h; cases h
      · rw [if_neg hfull] at h
        refine ih _ st' h ?_
        refine ⟨by simp; omega, by simp; omega, by simpa using h3⟩

/-- Claim C10: at termination of `run_pipeline`, for every row stream and
every delivery behaviour, the summary counters partition the input exactly:
`processed = valid + invalid`, `valid = sent + failed + unsent_valid`, and
the per-reason counts in `invalid_reasons` sum to `invalid`. -/
theorem C10_summary_partition (m mb : Nat) (base cap : ℚ)
    (nfc : List Char → List Char) (isAlpha : Char → Bool)
    (boundsAt : Nat → AgeConfig) (bhvAt : Nat → BulkBehavior) (effBatch : Nat)
    (rows : List Row) (summary : Counters)
    (h : runPipeline m mb base cap nfc isAlpha boundsAt bhvAt effBatch rows =
      some summary) :
    summary.processed = summary.valid + summary.invalid ∧
    summary.valid = summary.sent + summary.failed + summary.unsentValid ∧
    (summary.reasons.dedup.map fun code => summary.reasons.count code).sum =
      summary.invalid := by
  rw [runPipeline] at h
  cases hrows : pipelineRows m mb base cap nfc isAlpha boundsAt bhvAt effBatch rows
      ⟨Counters.init, [], 0⟩ with
  | none => rw [hrows] at h; cases h
  | some st =>
    rw [hrows] at h
    dsimp only at h
    have hinv0 : CountersInv Counters.init ([] : List Item).length := by
      refine ⟨rfl, rfl, rfl⟩
    have hst := pipelineRows_inv m mb base cap nfc isAlpha boundsAt bhvAt effBatch
      rows ⟨Counters.init, [], 0⟩ st hrows hinv0
    cases hf : flushBatch m mb base cap (bhvAt st.flushIdx) st.counters st.batch with
    | ok c2 b2 =>
      rw [hf] at h
      rw [Option.some.injEq] at h
      subst h
      have hfinal := flushBatch_ok_inv m mb base cap (bhvAt st.flushIdx)
        st.counters st.batch c2 b2 hf hst
      obtain ⟨⟨i1, i2, i3⟩, hb2⟩ := hfinal
      rw [hb2] at i2
      simp only [List.length_nil, Nat.add_zero] at i2
      exact ⟨i1, i2, by rw [List.sum_map_count_dedup_eq_length]; exact i3⟩
    | propagated b2 => rw [hf] at h; cases h
    | outOfModel => rw [hf] at h; cases h

/-- Witness for `C10_summary_partition`: a two-row stream (one valid and
delivered row, one row with a non-string name), full batch size 1, bulk
calls answering 200 — the summary is
`processed 2 = valid 1 + invalid 1`, `valid 1 = sent 1 + failed 0 + unsent 0`,
and the single recorded reason accounts for the invalid row. -/
theorem C10_summary_partition_witness :
    runPipeline 0 2 0 0 id Char.isAlpha (fun _ => ⟨18, 120⟩)
        (fun _ => ⟨[Resp.status 200 none], fun _ => [], fun _ => 0⟩) 1
        [⟨.str "John Doe".toList, .int 30,
            .str "12345678-1234-5678-1234-567812345678".toList, .int 5⟩,
          ⟨.int 3, .int 30,
            .str "12345678-1234-5678-1234-567812345678".toList, .int 5⟩] =
      some ⟨2, 1, 1, 1, 0, 0, ["NOT_A_STRING"]⟩ ∧
    ((2 : Nat) = 1 + 1 ∧ (1 : Nat) = 1 + 0 + 0 ∧
      ((["NOT_A_STRING"] : List String).dedup.map
        fun code => (["NOT_A_STRING"] : List String).count code).sum = 1) :=
  ⟨by decide,
    C10_summary_partition 0 2 0 0 id Char.isAlpha (fun _ => ⟨18, 120⟩)
      (fun _ => ⟨[Resp.status 200 none], fun _ => [], fun _ => 0⟩) 1
      [⟨.str "John Doe".toList, .int 30,
          .str "12345678-1234-5678-1234-567812345678".toList, .int 5⟩,
        ⟨.int 3, .int 30,
          .str "12345678-1234-5678-1234-567812345678".toList, .int 5⟩]
      ⟨2, 1, 1, 1, 0, 0, ["NOT_A_STRING"]⟩ (by decide)⟩

/-! ### Claim C8: the age validator and the CPython int grammar -/

/-- The head a `dropWhile` leaves behind fails the predicate. -/
theorem dropWhile_head_false (p : Char → Bool) :
    ∀ (l : List Char) (c : Char) (rest : List Char),
      l.dropWhile p = c :: rest → p c = false := by
  intro l
  induction l with
  | nil => intro c rest h; simp [List.dropWhile] at h
  | cons a t ih =>
    intro c rest h
    rw [List.dropWhile_cons] at h
    by_cases hp : p a
    · rw [if_pos hp] at h
      exact ih c rest h
    · rw [if_neg hp] at h
      cases h
      simpa using hp

/-- Stripping is idempotent (`pyStripP p l` is definitionally
`(l.dropWhile p).rdropWhile p`). -/
theorem pyStripP_idem (p : Char → Bool) (l : List Char) :
    pyStripP p (pyStripP p l) = pyStripP p l := by
  show List.rdropWhile p
      ((List.rdropWhile p (l.dropWhile p)).dropWhile p) =
    List.rdropWhile p (l.dropWhile p)
  have h1 : (List.rdropWhile p (l.dropWhile p)).dropWhile p =
      List.rdropWhile p (l.dropWhile p) := by
    cases hu : List.rdropWhile p (l.dropWhile p) with
    | nil => rfl
    | cons c rest =>
      obtain ⟨t, ht⟩ := hu ▸ List.rdropWhile_prefix p (l.dropWhile p)
      have hc : p c = false :=
        dropWhile_head_false p l c (rest ++ t) (by simpa using ht.symm)
      rw [List.dropWhile_cons, if_neg (by simp [hc])]
  rw [h1, List.rdropWhile_idempotent]

/-- Python `str.strip()` is idempotent. -/
theorem pyStrip_idem (l : List Char) : pyStrip (pyStrip l) = pyStrip l :=
  pyStripP_idem pyIsSpace l

/-- Stripping a list none of whose characters match is the identity. -/
theorem pyStripP_of_all_false (p : Char → Bool) (l : List Char)
    (h : ∀ c ∈ l, p c = false) : pyStripP p l = l := by
  have h1 : l.dropWhile p = l := by
    cases hl : l with
    | nil => rfl
    | cons c rest =>
      rw [List.dropWhile_cons, if_neg (by simp [h c (hl ▸ List.mem_cons_self c rest)])]
  show List.rdropWhile p (l.dropWhile p) = l
  rw [h1, List.rdropWhile_eq_self_iff]
  intro hne
  simp [h _ (List.getLast_mem hne)]

/-- No two consecutive underscores anywhere in the list. -/
def noDoubleUnderscore : List Char → Bool
  | [] => true
  | [_] => true
  | a :: b :: rest => !(a == '_' && b == '_') && noDoubleUnderscore (b :: rest)

/-- The digit-run condition of the CPython int grammar, stated independently
of the parser: every character a digit or an underscore, no trailing
underscore, and never two consecutive underscores. -/
def coreOk (l : List Char) : Bool :=
  l.all (fun c => c.isDigit || c == '_') &&
  l.getLast?.all (fun c => c != '_') &&
  noDoubleUnderscore l

/-- A well-formed unsigned run: nonempty, starting with a digit, and
satisfying `coreOk`. -/
def wfDigits (l : List Char) : Bool :=
  !l.isEmpty && l.head?.all Char.isDigit && coreOk l

/-- A well-formed optionally-signed run. -/
def wfPyInt (t : List Char) : Bool :=
  wfDigits t || ((t.head? == some '+' || t.head? == some '-') && wfDigits t.tail)

/-- Prepending a digit preserves `coreOk` in both directions. -/
theorem coreOk_cons_digit (c : Char) (rest : List Char) (hc : c.isDigit = true) :
    coreOk (c :: rest) = coreOk rest := by
  have hcu : c ≠ '_' := by
    intro h
    rw [h] at hc
    exact absurd hc (by decide)
  have hbe : (c == '_') = false := by simp [hcu]
  cases rest with
  | nil => simp [coreOk, noDoubleUnderscore, hc, hbe, hcu]
  | cons d ds =>
    simp only [coreOk, List.all_cons, List.getLast?_cons_cons, noDoubleUnderscore]
    simp [hc, hbe]

/-- Unfolding of `pyDigitsCore` at a head that is not an underscore. -/
theorem pyDigitsCore_cons_of_ne (dv : Char → Option Nat) (b : Nat) (a : Char)
    (l : List Char) (acc : Nat) (ha : a ≠ '_') :
    pyDigitsCore dv b (a :: l) acc =
      match dv a with
      | some d => pyDigitsCore dv b l (b * acc + d)
      | none => none := by
  rw [pyDigitsCore.eq_def]
  split
  · simp_all
  · simp_all
  · simp_all
  · rename_i h
    injection h with h1 h2
    subst h1
    subst h2
    rfl

/-- An underscore head followed by a digit preserves `coreOk` in both
directions. -/
theorem coreOk_underscore_cons (c : Char) (rest : List Char)
    (hc : c.isDigit = true) : coreOk ('_' :: c :: rest) = coreOk rest := by
  have hcu : c ≠ '_' := by
    intro h
    rw [h] at hc
    exact absurd hc (by decide)
  have hbe : (c == '_') = false := by simp [hcu]
  rw [show coreOk ('_' :: c :: rest) = coreOk (c :: rest) by
    cases rest with
    | nil => simp [coreOk, noDoubleUnderscore, hbe, hcu]
    | cons d ds =>
      simp only [coreOk, List.all_cons, List.getLast?_cons_cons, noDoubleUnderscore]
      simp [hbe]]
  exact coreOk_cons_digit c rest hc

/-- The parser `pyDigitsCore` succeeds exactly on `coreOk` runs (whatever the
accumulator). -/
theorem pyDigitsCore_isSome_iff :
    ∀ (l : List Char) (acc : Nat),
      (pyDigitsCore decVal 10 l acc).isSome = coreOk l := by
  intro l acc
  induction l, acc using pyDigitsCore.induct decVal 10 with
  | case1 acc => simp [pyDigitsCore, coreOk, noDoubleUnderscore]
  | case2 acc => simp [pyDigitsCore, coreOk]
  | case3 c rest acc d hdv ih =>
    have hc : c.isDigit = true := by
      by_contra hnc
      simp [decVal, hnc] at hdv
    rw [pyDigitsCore, hdv, ih, coreOk_underscore_cons c rest hc]
  | case4 c rest acc hdv =>
    have hc : c.isDigit = false := by
      by_cases hd : c.isDigit
      · simp [decVal, hd] at hdv
      · simpa using hd
    rw [pyDigitsCore, hdv]
    by_cases hcu : c = '_'
    · subst hcu
      simp [coreOk, noDoubleUnderscore]
    · simp [coreOk, hc, hcu]
  | case5 c rest acc hne1 hne2 d hdv ih =>
    have hc : c.isDigit = true := by
      by_contra hnc
      simp [decVal, hnc] at hdv
    have hcu : c ≠ '_' := by
      intro h
      rw [h] at hc
      exact absurd hc (by decide)
    rw [pyDigitsCore_cons_of_ne decVal 10 c rest acc hcu, hdv, ih,
      coreOk_cons_digit c rest hc]
  | case6 c rest acc hne1 hne2 hdv =>
    have hc : c.isDigit = false := by
      by_cases hd : c.isDigit
      · simp [decVal, hd] at hdv
      · simpa using hd
    have hcu : c ≠ '_' := by
      intro h
      subst h
      cases rest with
      | nil => exact hne1 rfl rfl
      | cons r rs => exact hne2 r rs rfl rfl
    rw [pyDigitsCore_cons_of_ne decVal 10 c rest acc hcu, hdv]
    simp [coreOk, hc, hcu]

/-- Decimal value of a digit list (most significant first). -/
def natOfDigits (l : List Char) : Nat :=
  l.foldl (fun a c => 10 * a + (c.toNat - 48)) 0

/-- The value `pyDigitsCore` accumulates is the decimal value of the digits
with the underscores removed. -/
theorem pyDigitsCore_value :
    ∀ (l : List Char) (acc : Nat) (v : Nat),
      pyDigitsCore decVal 10 l acc = some v →
      v = (l.filter (fun c => c ≠ '_')).foldl
        (fun a c => 10 * a + (c.toNat - 48)) acc := by
  intro l acc
  induction l, acc using pyDigitsCore.induct decVal 10 with
  | case1 acc =>
    intro v h
    rw [pyDigitsCore, Option.some.injEq] at h
    simp [← h]
  | case2 acc => intro v h; rw [pyDigitsCore] at h; cases h
  | case3 c rest acc d hdv ih =>
    intro v h
    have hc : c.isDigit = true := by
      by_contra hnc
      simp [decVal, hnc] at hdv
    have hd : d = c.toNat - 48 := by
      rw [decVal, if_pos hc, Option.some.injEq] at hdv
      exact hdv.symm
    have hcu : c ≠ '_' := by
      intro he
      rw [he] at hc
      exact absurd hc (by decide)
    rw [pyDigitsCore, hdv] at h
    have := ih v h
    simp [hcu, this, hd]
  | case4 c rest acc hdv =>
    intro v h
    rw [pyDigitsCore, hdv] at h
    cases h
  | case5 c rest acc hne1 hne2 d hdv ih =>
    intro v h
    have hc : c.isDigit = true := by
      by_contra hnc
      simp [decVal, hnc] at hdv
    have hd : d = c.toNat - 48 := by
      rw [decVal, if_pos hc, Option.some.injEq] at hdv
      exact hdv.symm
    have hcu : c ≠ '_' := by
      intro he
      rw [he] at hc
      exact absurd hc (by decide)
    rw [pyDigitsCore_cons_of_ne decVal 10 c rest acc hcu, hdv] at h
    have := ih v h
    simp [hcu, this, hd]
  | case6 c rest acc hne1 hne2 hdv =>
    intro v h
    have hcu : c ≠ '_' := by
      intro he
      subst he
      cases rest with
      | nil => exact hne1 rfl rfl
      | cons r rs => exact hne2 r rs rfl rfl
    rw [pyDigitsCore_cons_of_ne decVal 10 c rest acc hcu, hdv] at h
    cases h

/-- The unsigned parser succeeds exactly on well-formed runs. -/
theorem pyDigits_isSome_iff (l : List Char) :
    (pyDigits decVal 10 l).isSome = wfDigits l := by
  cases l with
  | nil => simp [pyDigits, wfDigits]
  | cons c rest =>
    rw [pyDigits]
    cases hdv : decVal c with
    | some d =>
      have hc : c.isDigit = true := by
        by_contra hnc
        simp [decVal, hnc] at hdv
      rw [pyDigitsCore_isSome_iff]
      simp [wfDigits, hc, coreOk_cons_digit c rest hc]
    | none =>
      have hc : c.isDigit = false := by
        by_cases hd : c.isDigit
        · simp [decVal, hd] at hdv
        · simpa using hd
      simp [wfDigits, hc]

/-- The unsigned parser computes the decimal value of the digits with the
underscores removed. -/
theorem pyDigits_value (l : List Char) (v : Nat)
    (h : pyDigits decVal 10 l = some v) :
    v = natOfDigits (l.filter (fun c => c ≠ '_')) := by
  cases l with
  | nil => rw [pyDigits] at h; cases h
  | cons c rest =>
    rw [pyDigits] at h
    cases hdv : decVal c with
    | none => rw [hdv] at h; cases h
    | some d =>
      rw [hdv] at h
      have hc : c.isDigit = true := by
        by_contra hnc
        simp [decVal, hnc] at hdv
      have hd : d = c.toNat - 48 := by
        rw [decVal, if_pos hc, Option.some.injEq] at hdv
        exact hdv.symm
      have hcu : c ≠ '_' := by
        intro he
        rw [he] at hc
        exact absurd hc (by decide)
      have := pyDigitsCore_value rest d v h
      simp [natOfDigits, hcu, this, hd]

/-- The value CPython `int()` returns, stated on the already-stripped text:
sign applied to the decimal value of the digits with underscores removed. -/
def pyIntValSpec (t : List Char) : Int :=
  match t with
  | '+' :: u => Int.ofNat (natOfDigits (u.filter (fun c => c ≠ '_')))
  | '-' :: u => -Int.ofNat (natOfDigits (u.filter (fun c => c ≠ '_')))
  | u => Int.ofNat (natOfDigits (u.filter (fun c => c ≠ '_')))

/-- Characterization of CPython `int(s)` on stripped text: it succeeds
exactly on the optional-sign digit-run-with-underscores grammar, returning
the signed decimal value. -/
theorem pyIntStr_eq_spec (t : List Char) (ht : pyStrip t = t) :
    pyIntStr t = if wfPyInt t = true then some (pyIntValSpec t) else none := by
  have hpos : ∀ u : List Char,
      (pyDigits decVal 10 u).map Int.ofNat =
        if wfDigits u = true then
          some (Int.ofNat (natOfDigits (u.filter (fun c => c ≠ '_')))) else none := by
    intro u
    cases hw : wfDigits u with
    | true =>
      have hsome : (pyDigits decVal 10 u).isSome = true := by
        rw [pyDigits_isSome_iff, hw]
      obtain ⟨v, hv⟩ := Option.isSome_iff_exists.mp hsome
      rw [hv]
      simp [pyDigits_value u v hv]
    | false =>
      have hnone : pyDigits decVal 10 u = none := by
        have h2 := pyDigits_isSome_iff u
        rw [hw] at h2
        exact Option.not_isSome_iff_eq_none.mp (by simp [h2])
      simp [hnone]
  have hneg : ∀ u : List Char,
      (pyDigits decVal 10 u).map (fun n => -(Int.ofNat n)) =
        if wfDigits u = true then
          some (-Int.ofNat (natOfDigits (u.filter (fun c => c ≠ '_')))) else none := by
    intro u
    cases hw : wfDigits u with
    | true =>
      have hsome : (pyDigits decVal 10 u).isSome = true := by
        rw [pyDigits_isSome_iff, hw]
      obtain ⟨v, hv⟩ := Option.isSome_iff_exists.mp hsome
      rw [hv]
      simp [pyDigits_value u v hv]
    | false =>
      have hnone : pyDigits decVal 10 u = none := by
        have h2 := pyDigits_isSome_iff u
        rw [hw] at h2
        exact Option.not_isSome_iff_eq_none.mp (by simp [h2])
      simp [hnone]
  rw [pyIntStr, ht]
  cases t with
  | nil => simp [pyDigits, wfPyInt, wfDigits]
  | cons c rest =>
    by_cases hp : c = '+'
    · subst hp
      show (pyDigits decVal 10 rest).map Int.ofNat = _
      rw [hpos rest]
      have hw : wfPyInt ('+' :: rest) = wfDigits rest := by
        simp [wfPyInt, wfDigits]
      rw [hw]
      rfl
    · by_cases hm : c = '-'
      · subst hm
        show (pyDigits decVal 10 rest).map (fun n => -(Int.ofNat n)) = _
        rw [hneg rest]
        have hw : wfPyInt ('-' :: rest) = wfDigits rest := by
          simp [wfPyInt, wfDigits]
        rw [hw]
        rfl
      · have hshow : (match c :: rest with
            | '+' :: rest => (pyDigits decVal 10 rest).map Int.ofNat
            | '-' :: rest => (pyDigits decVal 10 rest).map (fun n => -(Int.ofNat n))
            | l => (pyDigits decVal 10 l).map Int.ofNat) =
            (pyDigits decVal 10 (c :: rest)).map Int.ofNat := by
          split
          · simp_all
          · simp_all
          · rfl
        rw [hshow, hpos (c :: rest)]
        have hw : wfPyInt (c :: rest) = wfDigits (c :: rest) := by
          simp [wfPyInt, hp, hm]
        rw [hw]
        have hv : pyIntValSpec (c :: rest) =
            Int.ofNat (natOfDigits ((c :: rest).filter (fun x => x ≠ '_'))) := by
          rw [pyIntValSpec.eq_def]
          split
          · simp_all
          · simp_all
          · rfl
        rw [hv]

/-- A well-formed signed run is nonempty. -/
theorem wfPyInt_ne_nil (t : List Char) (h : wfPyInt t = true) : t ≠ [] := by
  intro he
  subst he
  simp [wfPyInt, wfDigits] at h

/-- A well-formed signed run contains only digits, underscores and signs. -/
theorem wfPyInt_chars (t : List Char) (h : wfPyInt t = true) :
    ∀ c ∈ t, c.isDigit = true ∨ c = '_' ∨ c = '+' ∨ c = '-' := by
  have hwf : ∀ u : List Char, wfDigits u = true →
      ∀ c ∈ u, c.isDigit = true ∨ c = '_' := by
    intro u hu c hc
    have hall : u.all (fun c => c.isDigit || c == '_') = true := by
      simp only [wfDigits, coreOk, Bool.and_eq_true] at hu
      tauto
    have := (List.all_eq_true.mp hall) c hc
    simpa using this
  rw [wfPyInt, Bool.or_eq_true] at h
  cases h with
  | inl h =>
    intro c hc
    rcases hwf t h c hc with h1 | h1
    · exact Or.inl h1
    · exact Or.inr (Or.inl h1)
  | inr h =>
    rw [Bool.and_eq_true] at h
    obtain ⟨hsign, htail⟩ := h
    cases t with
    | nil => simp at hsign
    | cons c0 u =>
      intro c hc
      rcases List.mem_cons.mp hc with h1 | h1
      · subst h1
        simp only [List.head?_cons, Bool.or_eq_true, beq_iff_eq,
          Option.some.injEq] at hsign
        rcases hsign with h2 | h2
        · exact Or.inr (Or.inr (Or.inl h2))
        · exact Or.inr (Or.inr (Or.inr h2))
      · rcases hwf u (by simpa using htail) c h1 with h2 | h2
        · exact Or.inl h2
        · exact Or.inr (Or.inl h2)

/-- Text containing a decimal point is never a well-formed signed run. -/
theorem wfPyInt_no_dot (t : List Char) (hd : '.' ∈ t) : wfPyInt t = false := by
  by_contra h
  rw [Bool.not_eq_false] at h
  rcases wfPyInt_chars t h '.' hd with h1 | h1 | h1 | h1 <;> simp_all

/-- Claim C8, counterexample: `"1_0"` contains the character `'_'`, which is
neither a digit nor a sign nor a decimal point, so the claim demands
`NOT_AN_INTEGER`; but CPython `int()` accepts underscore digit grouping and
the validator returns the parsed value 10. -/
theorem C8_counterexample_underscore :
    validateAge (.str "1_0".toList) ⟨0, 1000⟩ = .ok 10 ∧
    '_' ∈ "1_0".toList ∧ ('_' : Char).isDigit = false ∧
    ('_' : Char) ≠ '+' ∧ ('_' : Char) ≠ '-' ∧ ('_' : Char) ≠ '.' := by
  refine ⟨by decide, by decide, by decide, by decide, by decide, by decide⟩

/-- Claim C8 as amended: the age validator accepts an integer directly
(subject to the inclusive range check), rejects any boolean and any
non-int/non-str value with `NOT_AN_INTEGER`, rejects text that is empty
after trimming with `EMPTY_AFTER_TRIM`; trimmed text is accepted exactly
when it matches the optional-sign decimal grammar *with CPython's
single-underscore digit grouping* (the amendment), in which case the value
is the signed decimal value of its digits and the inclusive range check
applies; any other trimmed text — in particular any text containing a
decimal point — yields `NOT_AN_INTEGER`. -/
theorem C8_age_validator (cfg : AgeConfig) :
    (∀ n : Int, validateAge (.int n) cfg =
        if cfg.minAge ≤ n ∧ n ≤ cfg.maxAge then .ok n
        else .fail "AGE_OUT_OF_RANGE") ∧
    (∀ b : Bool, validateAge (.bool b) cfg = .fail "NOT_AN_INTEGER") ∧
    (validateAge .other cfg = .fail "NOT_AN_INTEGER") ∧
    (∀ s : List Char, pyStrip s = [] →
        validateAge (.str s) cfg = .fail "EMPTY_AFTER_TRIM") ∧
    (∀ s : List Char, pyStrip s ≠ [] → wfPyInt (pyStrip s) = false →
        validateAge (.str s) cfg = .fail "NOT_AN_INTEGER") ∧
    (∀ s : List Char, wfPyInt (pyStrip s) = true →
        validateAge (.str s) cfg =
          if cfg.minAge ≤ pyIntValSpec (pyStrip s) ∧
              pyIntValSpec (pyStrip s) ≤ cfg.maxAge
          then .ok (pyIntValSpec (pyStrip s))
          else .fail "AGE_OUT_OF_RANGE") ∧
    (∀ s : List Char, '.' ∈ pyStrip s →
        validateAge (.str s) cfg = .fail "NOT_AN_INTEGER") := by
  have hstr : ∀ s : List Char, validateAge (.str s) cfg =
      (if pyStrip s = [] then .fail "EMPTY_AFTER_TRIM"
       else match pyIntStr (pyStrip s) with
            | some v => ageRange v cfg
            | none => .fail "NOT_AN_INTEGER") := by
    intro s
    rfl
  have hparse : ∀ s : List Char,
      pyIntStr (pyStrip s) =
        if wfPyInt (pyStrip s) = true then some (pyIntValSpec (pyStrip s))
        else none :=
    fun s => pyIntStr_eq_spec (pyStrip s) (pyStrip_idem s)
  refine ⟨?_, fun b => rfl, rfl, ?_, ?_, ?_, ?_⟩
  · intro n
    show ageRange n cfg = _
    rw [ageRange]
    by_cases h : cfg.minAge ≤ n ∧ n ≤ cfg.maxAge
    · rw [if_neg (by simpa using h), if_pos h]
    · rw [if_pos (by simpa using h), if_neg h]
  · intro s hs
    rw [hstr s, if_pos hs]
  · intro s hne hwf
    rw [hstr s, if_neg hne, hparse s, hwf]
    simp
  · intro s hwf
    have hne : pyStrip s ≠ [] := wfPyInt_ne_nil _ hwf
    rw [hstr s, if_neg hne, hparse s, hwf]
    simp only [if_pos]
    rw [ageRange]
    by_cases h : cfg.minAge ≤ pyIntValSpec (pyStrip s) ∧
        pyIntValSpec (pyStrip s) ≤ cfg.maxAge
    · rw [if_neg (by simpa using h), if_pos h]
    · rw [if_pos (by simpa using h), if_neg h]
  · intro s hdot
    have hne : pyStrip s ≠ [] := by
      intro he
      rw [he] at hdot
      cases hdot
    have hwf : wfPyInt (pyStrip s) = false := wfPyInt_no_dot _ hdot
    rw [hstr s, if_neg hne, hparse s, hwf]
    simp

/-- Witness for `C8_age_validator`: the accepted literal `" +4_2 "` parses to
42 inside the default bounds, and `"5.0"` is rejected as not an integer. -/
theorem C8_age_validator_witness :
    (wfPyInt (pyStrip " +4_2 ".toList) = true ∧
      validateAge (.str " +4_2 ".toList) ⟨18, 120⟩ =
        (if (18 : Int) ≤ pyIntValSpec (pyStrip " +4_2 ".toList) ∧
            pyIntValSpec (pyStrip " +4_2 ".toList) ≤ 120
         then .ok (pyIntValSpec (pyStrip " +4_2 ".toList))
         else .fail "AGE_OUT_OF_RANGE")) ∧
    ('.' ∈ pyStrip "5.0".toList ∧
      validateAge (.str "5.0".toList) ⟨18, 120⟩ = .fail "NOT_AN_INTEGER") :=
  ⟨⟨by decide, (C8_age_validator ⟨18, 120⟩).2.2.2.2.2.1 " +4_2 ".toList (by decide)⟩,
    ⟨by decide, (C8_age_validator ⟨18, 120⟩).2.2.2.2.2.2 "5.0".toList (by decide)⟩⟩

/-! ### Claim C9: validator idempotence on normalized outputs -/

/-- Hexadecimal digit values are below 16. -/
theorem hexVal_lt (c : Char) (d : Nat) (h : hexVal c = some d) : d < 16 := by
  rw [hexVal] at h
  by_cases h1 : c.isDigit
  · rw [if_pos h1, Option.some.injEq] at h
    have h2 : 48 ≤ c.toNat ∧ c.toNat ≤ 57 := by
      simpa [Char.isDigit] using h1
    omega
  · rw [if_neg h1] at h
    by_cases h2 : 'a' ≤ c ∧ c ≤ 'f'
    · rw [if_pos h2, Option.some.injEq] at h
      have h3 : 97 ≤ c.toNat := h2.1
      have h4 : c.toNat ≤ 102 := h2.2
      omega
    · rw [if_neg h2] at h
      by_cases h3 : 'A' ≤ c ∧ c ≤ 'F'
      · rw [if_pos h3, Option.some.injEq] at h
        have h4 : 65 ≤ c.toNat := h3.1
        have h5 : c.toNat ≤ 70 := h3.2
        omega
      · rw [if_neg h3] at h
        cases h

/-- Value bound for the hex digit-run parser. -/
theorem pyDigitsCore_hex_lt :
    ∀ (l : List Char) (acc v : Nat),
      pyDigitsCore hexVal 16 l acc = some v → v < (acc + 1) * 16 ^ l.length := by
  intro l acc
  induction l, acc using pyDigitsCore.induct hexVal 16 with
  | case1 acc =>
    intro v h
    rw [pyDigitsCore, Option.some.injEq] at h
    simp [← h]
  | case2 acc => intro v h; rw [pyDigitsCore] at h; cases h
  | case3 c rest acc d hdv ih =>
    intro v h
    rw [pyDigitsCore, hdv] at h
    have hd16 := hexVal_lt c d hdv
    have hb := ih v h
    have hstep : (16 * acc + d + 1) * 16 ^ rest.length ≤
        (acc + 1) * 16 ^ (rest.length + 2) := by
      have h1 : 16 * acc + d + 1 ≤ 16 * (acc + 1) := by omega
      calc (16 * acc + d + 1) * 16 ^ rest.length
          ≤ 16 * (acc + 1) * 16 ^ rest.length :=
            Nat.mul_le_mul_right _ h1
        _ = (acc + 1) * 16 ^ (rest.length + 1) := by ring
        _ ≤ (acc + 1) * 16 ^ (rest.length + 2) := by
            exact Nat.mul_le_mul_left _ (Nat.pow_le_pow_right (by norm_num) (by omega))
    have : v < (acc + 1) * 16 ^ (rest.length + 2) := lt_of_lt_of_le hb hstep
    simpa using this
  | case4 c rest acc hdv => intro v h; rw [pyDigitsCore, hdv] at h; cases h
  | case5 c rest acc hne1 hne2 d hdv ih =>
    intro v h
    have hcu : c ≠ '_' := by
      intro he
      subst he
      cases rest with
      | nil => exact hne1 rfl rfl
      | cons r rs => exact hne2 r rs rfl rfl
    rw [pyDigitsCore_cons_of_ne hexVal 16 c rest acc hcu, hdv] at h
    have hd16 := hexVal_lt c d hdv
    have hb := ih v h
    have hstep : (16 * acc + d + 1) * 16 ^ rest.length ≤
        (acc + 1) * 16 ^ (rest.length + 1) := by
      have h1 : 16 * acc + d + 1 ≤ 16 * (acc + 1) := by omega
      calc (16 * acc + d + 1) * 16 ^ rest.length
          ≤ 16 * (acc + 1) * 16 ^ rest.length := Nat.mul_le_mul_right _ h1
        _ = (acc + 1) * 16 ^ (rest.length + 1) := by ring
    have : v < (acc + 1) * 16 ^ (rest.length + 1) := lt_of_lt_of_le hb hstep
    simpa using this
  | case6 c rest acc hne1 hne2 hdv =>
    intro v h
    have hcu : c ≠ '_' := by
      intro he
      subst he
      cases rest with
      | nil => exact hne1 rfl rfl
      | cons r rs => exact hne2 r rs rfl rfl
    rw [pyDigitsCore_cons_of_ne hexVal 16 c rest acc hcu, hdv] at h
    cases h

/-- The hex run parser yields values below `16 ^ length`. -/
theorem pyDigits_hex_lt (l : List Char) (v : Nat)
    (h : pyDigits hexVal 16 l = some v) : v < 16 ^ l.length := by
  cases l with
  | nil => rw [pyDigits] at h; cases h
  | cons c rest =>
    rw [pyDigits] at h
    cases hdv : hexVal c with
    | none => rw [hdv] at h; cases h
    | some d =>
      rw [hdv] at h
      have hd16 := hexVal_lt c d hdv
      have hb := pyDigitsCore_hex_lt rest d v h
      calc v < (d + 1) * 16 ^ rest.length := hb
        _ ≤ 16 * 16 ^ rest.length := Nat.mul_le_mul_right _ (by omega)
        _ = 16 ^ (c :: rest).length := by
            rw [List.length_cons]
            ring

/-- Facts about the sixteen lowercase hex digit characters, used to reparse
a canonical UUID string. -/
theorem hexDigitChar_facts : ∀ m : Nat, m < 16 →
    pyIsSpace (Nat.digitChar m) = false ∧ Nat.digitChar m ≠ '-' ∧
    Nat.digitChar m ≠ '{' ∧ Nat.digitChar m ≠ '}' ∧ Nat.digitChar m ≠ 'u' ∧
    Nat.digitChar m ≠ '+' ∧ Nat.digitChar m ≠ 'x' ∧ Nat.digitChar m ≠ 'X' ∧
    Nat.digitChar m ≠ '_' ∧ hexVal (Nat.digitChar m) = some m := by
  decide

/-- `natToHexDigits k n` has exactly `k` characters. -/
theorem natToHexDigits_length : ∀ (k n : Nat), (natToHexDigits k n).length = k := by
  intro k
  induction k with
  | zero => intro n; rfl
  | succ k ih =>
    intro n
    rw [natToHexDigits]
    simp [ih]

/-- Every character of `natToHexDigits` is a hex digit character. -/
theorem natToHexDigits_mem :
    ∀ (k n : Nat) (c : Char), c ∈ natToHexDigits k n →
      ∃ m : Nat, m < 16 ∧ c = Nat.digitChar m := by
  intro k
  induction k with
  | zero => intro n c hc; cases hc
  | succ k ih =>
    intro n c hc
    rw [natToHexDigits] at hc
    rcases List.mem_append.mp hc with h | h
    · exact ih (n / 16) c h
    · rcases List.mem_singleton.mp h with rfl
      exact ⟨n % 16, Nat.mod_lt _ (by norm_num), rfl⟩

/-- A list of hex digit characters parses without failure, folding into the
accumulator. -/
theorem pyDigitsCore_all_hex :
    ∀ (l : List Char) (acc : Nat),
      (∀ c ∈ l, ∃ m : Nat, m < 16 ∧ c = Nat.digitChar m) →
      pyDigitsCore hexVal 16 l acc =
        some (l.foldl (fun a c => 16 * a + (hexVal c).getD 0) acc) := by
  intro l
  induction l with
  | nil => intro acc _; rfl
  | cons c rest ih =>
    intro acc hall
    obtain ⟨m, hm, rfl⟩ := hall _ (List.mem_cons_self _ _)
    have hfacts := hexDigitChar_facts m hm
    rw [pyDigitsCore_cons_of_ne hexVal 16 _ rest acc hfacts.2.2.2.2.2.2.2.2.1,
      hfacts.2.2.2.2.2.2.2.2.2]
    dsimp only
    rw [ih _ (fun c hc => hall c (List.mem_cons_of_mem _ hc))]
    simp [hfacts.2.2.2.2.2.2.2.2.2]

/-- A nonempty list of hex digit characters parses to its fold value. -/
theorem pyDigits_all_hex (l : List Char) (hne : l ≠ [])
    (hall : ∀ c ∈ l, ∃ m : Nat, m < 16 ∧ c = Nat.digitChar m) :
    pyDigits hexVal 16 l =
      some (l.foldl (fun a c => 16 * a + (hexVal c).getD 0) 0) := by
  cases l with
  | nil => exact absurd rfl hne
  | cons c rest =>
    obtain ⟨m, hm, rfl⟩ := hall _ (List.mem_cons_self _ _)
    have hfacts := hexDigitChar_facts m hm
    rw [pyDigits, hfacts.2.2.2.2.2.2.2.2.2]
    dsimp only
    rw [pyDigitsCore_all_hex rest m (fun c hc => hall c (List.mem_cons_of_mem _ hc))]
    simp [hfacts.2.2.2.2.2.2.2.2.2]

/-- Folding the hex digits of `n` recovers `n` modulo `16 ^ k`. -/
theorem hexFold_natToHexDigits :
    ∀ (k n acc : Nat),
      (natToHexDigits k n).foldl (fun a c => 16 * a + (hexVal c).getD 0) acc =
        acc * 16 ^ k + n % 16 ^ k := by
  intro k
  induction k with
  | zero => intro n acc; simp [natToHexDigits, Nat.mod_one]
  | succ k ih =>
    intro n acc
    rw [natToHexDigits, List.foldl_append, ih (n / 16) acc]
    have hmod := (hexDigitChar_facts (n % 16) (Nat.mod_lt _ (by norm_num))).2.2.2.2.2.2.2.2.2
    simp only [List.foldl_cons, List.foldl_nil, hmod, Option.getD_some]
    have h1 : n % 16 ^ (k + 1) = n % 16 + 16 * (n / 16 % 16 ^ k) := by
      have h2 : (16 : Nat) ^ (k + 1) = 16 * 16 ^ k := by ring
      rw [h2, Nat.mod_mul]
    rw [h1]
    ring

/-- Reparsing the 32 hex digits of `n < 16^32` with CPython `int(·, 16)`
recovers `n`. -/
theorem pyInt16Str_natToHexDigits (n : Nat) (hn : n < 16 ^ 32) :
    pyInt16Str (natToHexDigits 32 n) = some (Int.ofNat n) := by
  have hmem : ∀ c ∈ natToHexDigits 32 n, ∃ m : Nat, m < 16 ∧ c = Nat.digitChar m :=
    natToHexDigits_mem 32 n
  have hne : natToHexDigits 32 n ≠ [] := by
    intro he
    have hl := natToHexDigits_length 32 n
    rw [he] at hl
    cases hl
  have hdigits : pyDigits hexVal 16 (natToHexDigits 32 n) = some (n % 16 ^ 32) := by
    rw [pyDigits_all_hex _ hne hmem, hexFold_natToHexDigits 32 n 0]
    simp
  have hbody : pyHexBody (natToHexDigits 32 n) = some (n % 16 ^ 32) := by
    rw [pyHexBody.eq_def]
    split
    · rename_i x rest heq
      have hx : x ∈ natToHexDigits 32 n := by
        rw [heq]
        exact List.mem_cons_of_mem _ (List.mem_cons_self _ _)
      obtain ⟨m, hm, rfl⟩ := hmem x hx
      have hfacts := hexDigitChar_facts m hm
      rw [if_neg (not_or.mpr ⟨hfacts.2.2.2.2.2.2.1, hfacts.2.2.2.2.2.2.2.1⟩)]
      rw [← heq]
      exact hdigits
    · exact hdigits
  have hstrip : pyStrip (natToHexDigits 32 n) = natToHexDigits 32 n := by
    refine pyStripP_of_all_false pyIsSpace _ ?_
    intro c hc
    obtain ⟨m, hm, rfl⟩ := hmem c hc
    exact (hexDigitChar_facts m hm).1
  rw [pyInt16Str, hstrip]
  split
  · rename_i rest heq
    exfalso
    have : ('+' : Char) ∈ natToHexDigits 32 n := by
      rw [heq]
      exact List.mem_cons_self _ _
    obtain ⟨m, hm, he⟩ := hmem _ this
    exact (hexDigitChar_facts m hm).2.2.2.2.2.1 he.symm
  · rename_i rest heq
    exfalso
    have : ('-' : Char) ∈ natToHexDigits 32 n := by
      rw [heq]
      exact List.mem_cons_self _ _
    obtain ⟨m, hm, he⟩ := hmem _ this
    exact (hexDigitChar_facts m hm).2.1 he.symm
  · rw [hbody, Nat.mod_eq_of_lt hn]
    rfl

/-- `pyReplaceAux` leaves a list alone when the pattern's first character
does not occur in it. -/
theorem pyReplaceAux_eq_self (pat : List Char) (h0 : Char)
    (hp : pat.head? = some h0) :
    ∀ (fuel : Nat) (l : List Char), h0 ∉ l → pyReplaceAux pat fuel l = l := by
  intro fuel
  induction fuel with
  | zero => intro l _; rfl
  | succ fuel ih =>
    intro l hnm
    cases l with
    | nil => rfl
    | cons c rest =>
      rw [pyReplaceAux, if_neg ?_]
      · rw [ih rest (fun hc => hnm (List.mem_cons_of_mem _ hc))]
      · rintro ⟨hne, hpre⟩
        cases pat with
        | nil => exact hne rfl
        | cons p0 pt =>
          rw [List.head?_cons, Option.some.injEq] at hp
          have hpc : p0 = c := by
            simp [List.isPrefixOf] at hpre
            exact hpre.1
          apply hnm
          rw [← hp, hpc]
          exact List.mem_cons_self _ _

/-- Python `replace(pat, "")` leaves a list alone when the pattern's first
character does not occur in it. -/
theorem pyReplace_eq_self (pat l : List Char) (h0 : Char)
    (hp : pat.head? = some h0) (hnm : h0 ∉ l) : pyReplace pat l = l :=
  pyReplaceAux_eq_self pat h0 hp l.length l hnm

/-- Every character of a canonical UUID string is a hex digit character or a
hyphen. -/
theorem uuidCanonical_mem (n : Nat) :
    ∀ c ∈ uuidCanonical n,
      (∃ m : Nat, m < 16 ∧ c = Nat.digitChar m) ∨ c = '-' := by
  intro c hc
  rw [uuidCanonical] at hc
  have hmem := natToHexDigits_mem 32 n
  have hseg : ∀ a b : Nat,
      c ∈ ((natToHexDigits 32 n).drop a).take b →
      ∃ m : Nat, m < 16 ∧ c = Nat.digitChar m :=
    fun a b h => hmem c (List.drop_subset _ _ (List.take_subset _ _ h))
  rcases List.mem_append.mp hc with h1 | h1
  swap
  · rcases List.mem_cons.mp h1 with h2 | h2
    · exact Or.inr h2
    · exact Or.inl (hmem c (List.drop_subset _ _ h2))
  rcases List.mem_append.mp h1 with h2 | h2
  swap
  · rcases List.mem_cons.mp h2 with h3 | h3
    · exact Or.inr h3
    · exact Or.inl (hseg 16 4 h3)
  rcases List.mem_append.mp h2 with h3 | h3
  swap
  · rcases List.mem_cons.mp h3 with h4 | h4
    · exact Or.inr h4
    · exact Or.inl (hseg 12 4 h4)
  rcases List.mem_append.mp h3 with h4 | h4
  swap
  · rcases List.mem_cons.mp h4 with h5 | h5
    · exact Or.inr h5
    · exact Or.inl (hseg 8 4 h5)
  exact Or.inl (hmem c (List.take_subset _ _ h4))

/-- Cleaning a canonical UUID string recovers exactly its 32 hex digits. -/
theorem uuidClean_canonical (n : Nat) :
    uuidClean (uuidCanonical n) = natToHexDigits 32 n := by
  have hmem := uuidCanonical_mem n
  have hnu : 'u' ∉ uuidCanonical n := by
    intro hu
    rcases hmem 'u' hu with ⟨m, hm, he⟩ | he
    · exact (hexDigitChar_facts m hm).2.2.2.2.1 he.symm
    · cases he
  have hbr : ∀ c ∈ uuidCanonical n, (c = '{' || c = '}') = false := by
    intro c hc
    rcases hmem c hc with ⟨m, hm, rfl⟩ | rfl
    · simp [(hexDigitChar_facts m hm).2.2.1, (hexDigitChar_facts m hm).2.2.2.1]
    · decide
  rw [uuidClean, pyReplace_eq_self "urn:".toList _ 'u' rfl hnu,
    pyReplace_eq_self "uuid:".toList _ 'u' rfl hnu,
    pyStripP_of_all_false _ _ hbr]
  have hfilter : ∀ l : List Char,
      (∀ c ∈ l, ∃ m : Nat, m < 16 ∧ c = Nat.digitChar m) →
      l.filter (fun x => !decide (x = '-')) = l := by
    intro l hl
    rw [List.filter_eq_self]
    intro c hc
    obtain ⟨m, hm, rfl⟩ := hl c hc
    simp [(hexDigitChar_facts m hm).2.1]
  rw [uuidCanonical]
  simp only [List.filter_append, List.filter_cons]
  norm_num
  rw [hfilter _ (fun c hc => natToHexDigits_mem 32 n c (List.take_subset _ _ hc)),
    hfilter _ (fun c hc => natToHexDigits_mem 32 n c
      (List.drop_subset _ _ (List.take_subset _ _ hc))),
    hfilter _ (fun c hc => natToHexDigits_mem 32 n c
      (List.drop_subset _ _ (List.take_subset _ _ hc))),
    hfilter _ (fun c hc => natToHexDigits_mem 32 n c
      (List.drop_subset _ _ (List.take_subset _ _ hc))),
    hfilter _ (fun c hc => natToHexDigits_mem 32 n c (List.drop_subset _ _ hc))]
  have e16 : (natToHexDigits 32 n).drop 16 =
      ((natToHexDigits 32 n).drop 16).take 4 ++ (natToHexDigits 32 n).drop 20 := by
    have h4 := List.take_append_drop 4 ((natToHexDigits 32 n).drop 16)
    rw [List.drop_drop] at h4
    exact h4.symm
  have e12 : (natToHexDigits 32 n).drop 12 =
      ((natToHexDigits 32 n).drop 12).take 4 ++ (natToHexDigits 32 n).drop 16 := by
    have h4 := List.take_append_drop 4 ((natToHexDigits 32 n).drop 12)
    rw [List.drop_drop] at h4
    exact h4.symm
  have e8 : (natToHexDigits 32 n).drop 8 =
      ((natToHexDigits 32 n).drop 8).take 4 ++ (natToHexDigits 32 n).drop 12 := by
    have h4 := List.take_append_drop 4 ((natToHexDigits 32 n).drop 8)
    rw [List.drop_drop] at h4
    exact h4.symm
  have e0 : natToHexDigits 32 n =
      (natToHexDigits 32 n).take 8 ++ (natToHexDigits 32 n).drop 8 :=
    (List.take_append_drop 8 _).symm
  conv_rhs => rw [e0, e8, e12, e16]

/-- Value bound for the hex body parser: below `16 ^ length`. -/
theorem pyHexBody_lt (u : List Char) (v : Nat) (h : pyHexBody u = some v) :
    v < 16 ^ u.length := by
  have hmono : ∀ a b : Nat, a ≤ b → (16 : Nat) ^ a ≤ 16 ^ b := fun a b hab =>
    Nat.pow_le_pow_right (by norm_num) hab
  rw [pyHexBody.eq_def] at h
  split at h
  · rename_i x rest
    by_cases hx : x = 'x' ∨ x = 'X'
    · rw [if_pos hx] at h
      split at h
      · rename_i rest2
        have hb := pyDigits_hex_lt rest2 v h
        refine lt_of_lt_of_le hb (hmono _ _ ?_)
        simp only [List.length_cons]
        omega
      · rename_i hno
        have hb := pyDigits_hex_lt rest v h
        refine lt_of_lt_of_le hb (hmono _ _ ?_)
        simp only [List.length_cons]
        omega
    · rw [if_neg hx] at h
      exact pyDigits_hex_lt _ v h
  · exact pyDigits_hex_lt _ v h

/-- Stripping yields a sublist. -/
theorem pyStripP_sublist (p : Char → Bool) (l : List Char) :
    (pyStripP p l).Sublist l := by
  show (List.rdropWhile p (l.dropWhile p)).Sublist l
  exact ((List.rdropWhile_prefix p _).sublist).trans (List.dropWhile_suffix p).sublist

/-- A parsed UUID value is a natural number below `16 ^ 32`. -/
theorem uuidParse_bounds (t : List Char) (i : Int) (h : uuidParse t = some i) :
    ∃ v : Nat, i = Int.ofNat v ∧ v < 16 ^ 32 := by
  have hmono : ∀ a b : Nat, a ≤ b → (16 : Nat) ^ a ≤ 16 ^ b := fun a b hab =>
    Nat.pow_le_pow_right (by norm_num) hab
  rw [uuidParse] at h
  by_cases hlen : (uuidClean t).length = 32
  · rw [if_pos hlen] at h
    have hnd : ('-' : Char) ∉ uuidClean t := by
      intro hm
      rw [uuidClean] at hm
      have := List.of_mem_filter hm
      simp at this
    have hsub : ∀ c ∈ pyStrip (uuidClean t), c ∈ uuidClean t :=
      fun c hc => (pyStripP_sublist _ _).subset hc
    have hslen : (pyStrip (uuidClean t)).length ≤ 32 :=
      hlen ▸ (pyStripP_sublist _ _).length_le
    rw [pyInt16Str] at h
    split at h
    · rename_i rest heq
      cases hb : pyHexBody rest with
      | none => rw [hb] at h; cases h
      | some v =>
        rw [hb, Option.map_some', Option.some.injEq] at h
        refine ⟨v, h.symm, ?_⟩
        have hblt := pyHexBody_lt rest v hb
        refine lt_of_lt_of_le hblt (hmono _ _ ?_)
        have : (pyStrip (uuidClean t)).length = rest.length + 1 := by
          rw [heq]
          rfl
        omega
    · rename_i rest heq
      exfalso
      exact hnd (hsub '-' (heq ▸ List.mem_cons_self _ _))
    · cases hb : pyHexBody (pyStrip (uuidClean t)) with
      | none => rw [hb] at h; cases h
      | some v =>
        rw [hb, Option.map_some', Option.some.injEq] at h
        refine ⟨v, h.symm, ?_⟩
        exact lt_of_lt_of_le (pyHexBody_lt _ v hb) (hmono _ _ hslen)
  · rw [if_neg hlen] at h
    cases h

/-- Re-validating a canonical UUID string of a nonzero value below `2^128`
succeeds and returns the identical string. -/
theorem validateCookie_canonical (n : Nat) (hn : n < 16 ^ 32) (hnz : n ≠ 0) :
    validateCookie (.str (uuidCanonical n)) = .ok (uuidCanonical n) := by
  have hmem := uuidCanonical_mem n
  have hnospace : ∀ c ∈ uuidCanonical n, pyIsSpace c = false := by
    intro c hc
    rcases hmem c hc with ⟨m, hm, rfl⟩ | rfl
    · exact (hexDigitChar_facts m hm).1
    · decide
  have hstrip : pyStrip (uuidCanonical n) = uuidCanonical n :=
    pyStripP_of_all_false _ _ hnospace
  have hne : uuidCanonical n ≠ [] := by
    rw [uuidCanonical]
    intro he
    have h2 := List.append_eq_nil.mp he
    cases h2.2
  have hparse : uuidParse (uuidCanonical n) = some (Int.ofNat n) := by
    rw [uuidParse, uuidClean_canonical n, if_pos (natToHexDigits_length 32 n),
      pyInt16Str_natToHexDigits n hn]
  show (if pyStrip (uuidCanonical n) = [] then VResult.fail "EMPTY_AFTER_TRIM"
    else match uuidParse (pyStrip (uuidCanonical n)) with
      | none => VResult.fail "BAD_UUID"
      | some i => if i = 0 then VResult.fail "NIL_UUID"
          else VResult.ok (uuidCanonical i.toNat)) = VResult.ok (uuidCanonical n)
  rw [hstrip, if_neg hne, hparse]
  have hz : (Int.ofNat n) ≠ 0 := by
    simpa using hnz
  dsimp only
  rw [if_neg hz]
  simp

/-- Claim C9: validation is idempotent on its own normalized outputs — any
success value of the name validator re-validates to the identical string
(assuming only the true NFC facts that normalization is idempotent and that
normal forms are closed under stripping), and any success value of the
cookie validator re-validates to the identical canonical UUID string. -/
theorem C9_idempotent :
    (∀ (nfc : List Char → List Char) (isAlpha : Char → Bool)
        (v : PyVal) (s : List Char),
      (∀ x, nfc (nfc x) = nfc x) →
      (∀ x, nfc x = x → nfc (pyStrip x) = pyStrip x) →
      validateName nfc isAlpha v = .ok s →
      validateName nfc isAlpha (.str s) = .ok s) ∧
    (∀ (v : PyVal) (s : List Char),
      validateCookie v = .ok s → validateCookie (.str s) = .ok s) := by
  constructor
  · intro nfc isAlpha v s hid hsub h
    cases v with
    | int n => simp [validateName] at h
    | bool b => simp [validateName] at h
    | other => simp [validateName] at h
    | str w =>
      dsimp only [validateName] at h
      by_cases he : pyStrip (nfc w) = []
      · rw [if_pos he] at h
        simp at h
      · rw [if_neg he] at h
        cases hscan : nameScan isAlpha (pyStrip (nfc w)) false with
        | some code => rw [hscan] at h; simp at h
        | none =>
          rw [hscan] at h
          have hs : pyStrip (nfc w) = s := by simpa using h
          have hnorm : nfc s = s := by
            rw [← hs]
            exact hsub (nfc w) (hid w)
          have hss : pyStrip s = s := by
            rw [← hs, pyStrip_idem]
          have hscan2 : nameScan isAlpha s false = none := hs ▸ hscan
          have hne2 : s ≠ [] := hs ▸ he
          dsimp only [validateName]
          rw [hnorm, hss, if_neg hne2, hscan2]
  · intro v s h
    cases v with
    | int n => simp [validateCookie] at h
    | bool b => simp [validateCookie] at h
    | other => simp [validateCookie] at h
    | str w =>
      dsimp only [validateCookie] at h
      by_cases he : pyStrip w = []
      · rw [if_pos he] at h
        simp at h
      · rw [if_neg he] at h
        cases hp : uuidParse (pyStrip w) with
        | none => rw [hp] at h; simp at h
        | some i =>
          rw [hp] at h
          dsimp only at h
          by_cases hz : i = 0
          · rw [if_pos hz] at h
            simp at h
          · rw [if_neg hz] at h
            have hs : uuidCanonical i.toNat = s := by simpa using h
            obtain ⟨vv, hvv, hvlt⟩ := uuidParse_bounds (pyStrip w) i hp
            have htn : i.toNat = vv := by
              rw [hvv]
              rfl
            have hnz : i.toNat ≠ 0 := by
              intro h0
              apply hz
              rw [hvv]
              rw [hvv] at h0
              simp at h0
              simp [h0]
            rw [← hs]
            exact validateCookie_canonical i.toNat (htn ▸ hvlt) hnz

/-- Witness for `C9_idempotent`: re-validating the normalized name
`"John Doe"` (with `nfc := id`, which satisfies both NFC facts) and the
canonical cookie of a brace-delimited uppercase input returns the identical
strings. -/
theorem C9_idempotent_witness :
    ((∀ x : List Char, id (id x) = id x) ∧
      (∀ x : List Char, id x = x → id (pyStrip x) = pyStrip x) ∧
      validateName id Char.isAlpha (.str " John Doe ".toList) =
        .ok "John Doe".toList ∧
      validateName id Char.isAlpha (.str "John Doe".toList) =
        .ok "John Doe".toList) ∧
    (validateCookie (.str "{ABCDEF78-1234-5678-1234-567812345678}".toList) =
        .ok "abcdef78-1234-5678-1234-567812345678".toList ∧
      validateCookie (.str "abcdef78-1234-5678-1234-567812345678".toList) =
        .ok "abcdef78-1234-5678-1234-567812345678".toList) :=
  ⟨⟨fun _ => rfl, fun _ _ => rfl, by decide,
      C9_idempotent.1 id Char.isAlpha (.str " John Doe ".toList)
        "John Doe".toList (fun _ => rfl) (fun _ _ => rfl) (by decide)⟩,
    ⟨by decide,
      C9_idempotent.2 (.str "{ABCDEF78-1234-5678-1234-567812345678}".toList)
        "abcdef78-1234-5678-1234-567812345678".toList (by decide)⟩⟩
